import Mathlib

/-!
Verification development for the asd-dashboard repository.

Each JavaScript module relevant to the checked claims is shallowly embedded
as executable Lean definitions.  JavaScript `Map` objects are modelled as
association lists in insertion order, `Set` objects as duplicate-free lists
in insertion order, strings as Lean `String`s (or `List Char` where slicing
arithmetic dominates), and `undefined` as `Option.none`.
-/

set_option maxHeartbeats 1000000

namespace AsdDashboard

/-- Truthiness of a JS string-or-undefined value: a string is truthy iff it is
nonempty; `undefined` is falsy. -/
def jsTruthyStr : Option String → Bool
  | some s => s != ""
  | none => false

/-! ## snapshotDedup (src/utils/chunker.js related module `snapshotDedup`) -/

/-- ASCII-level model of `String.prototype.toLowerCase`, mapping characters
through `Char.toLower` (kernel-reducible, unlike `String.toLower`). -/
def jsToLower (s : String) : String := String.mk (s.data.map Char.toLower)

/-- Model of `String.prototype.trim`: strip leading and trailing whitespace. -/
def jsTrim (s : String) : String :=
  String.mk (((s.data.dropWhile Char.isWhitespace).reverse.dropWhile
    Char.isWhitespace).reverse)

namespace Dedup

/-- Embedding of `norm` from the `snapshotDedup` module:
`(n || '').trim().toLowerCase()`. -/
def norm (n : Option String) : String := jsToLower (jsTrim (n.getD ""))

/-- Recursive worker for `snapshotDedup`; `seenIds`/`seenNames` model the two
JS `Set`s (membership only, so a plain list suffices). -/
def snapshotDedupGo (getId getName : α → Option String)
    (seenIds seenNames : List String) : List α → List α
  | [] => []
  | item :: rest =>
    let idv := getId item
    let nm := norm (getName item)
    if (jsTruthyStr idv && seenIds.contains (idv.getD "")) || (nm != "" && seenNames.contains nm) then
      snapshotDedupGo getId getName seenIds seenNames rest
    else
      item :: snapshotDedupGo getId getName
        (if jsTruthyStr idv then (idv.getD "") :: seenIds else seenIds)
        (if nm != "" then nm :: seenNames else seenNames) rest

/-- Embedding of `snapshotDedup(items, getId, getName)`: deduplicate keeping
the first occurrence, tracking truthy ids and nonempty normalized names. -/
def snapshotDedup (items : List α) (getId getName : α → Option String) : List α :=
  snapshotDedupGo getId getName [] [] items

/-- Dedup identifier of an item as described by the spec: its stable id when
truthy, otherwise no identifier. -/
def idKey (getId : α → Option String) (x : α) : Option String :=
  if jsTruthyStr (getId x) then some ((getId x).getD "") else none

/-- Dedup name of an item as described by the spec: its trimmed lower-cased
name when nonempty, otherwise no name. -/
def nameKey (getName : α → Option String) (x : α) : Option String :=
  if norm (getName x) != "" then some (norm (getName x)) else none

/-- Spec-side clash test: `x` clashes with an earlier kept `y` when `x`'s
stable id or normalized name exists and equals that of `y`. -/
def keyClash (getId getName : α → Option String) (y x : α) : Bool :=
  ((idKey getId x).isSome && idKey getId y == idKey getId x)
  || ((nameKey getName x).isSome && nameKey getName y == nameKey getName x)

/-- Spec-side dedup: drop an item iff its id or normalized name has already
been seen in an earlier KEPT item.  Stated from the claim wording, to be
compared with the source embedding `snapshotDedup`. -/
def specDedupGo (getId getName : α → Option String) (kept : List α) : List α → List α
  | [] => []
  | x :: rest =>
    if kept.any (fun y => keyClash getId getName y x) then
      specDedupGo getId getName kept rest
    else
      x :: specDedupGo getId getName (kept ++ [x]) rest

/-- Spec-side dedup over a whole list (no items kept yet). -/
def specDedup (items : List α) (getId getName : α → Option String) : List α :=
  specDedupGo getId getName [] items

theorem dedupCond_eq_specCond (getId getName : α → Option String) (item : α)
    (seenIds seenNames : List String) (kept : List α)
    (hId : ∀ s : String, s ∈ seenIds ↔ ∃ y ∈ kept, idKey getId y = some s)
    (hName : ∀ s : String, s ∈ seenNames ↔ ∃ y ∈ kept, nameKey getName y = some s) :
    (jsTruthyStr (getId item) && seenIds.contains ((getId item).getD "") ||
        (norm (getName item) != "" && seenNames.contains (norm (getName item)))) =
        kept.any (fun y => keyClash getId getName y item) := by
  rw [Bool.eq_iff_iff]
  simp only [Bool.or_eq_true, Bool.and_eq_true, List.any_eq_true, keyClash,
    List.elem_iff, bne_iff_ne, ne_eq, beq_iff_eq, Option.isSome_iff_exists]
  rw [hId, hName]
  by_cases hT : jsTruthyStr (getId item) = true
  · by_cases hN : norm (getName item) = ""
    · simp only [idKey, nameKey, hT, hN, if_true, bne_self_eq_false]
      simp [hN]
    · simp only [idKey, nameKey, hT, if_true]
      have hN2 : (norm (getName item) != "") = true := by simpa using hN
      simp [hN2]
      aesop
  · have hT2 : jsTruthyStr (getId item) = false := by simpa using hT
    by_cases hN : norm (getName item) = ""
    · simp [idKey, nameKey, hT2, hN]
    · have hN2 : (norm (getName item) != "") = true := by simpa using hN
      simp only [idKey, nameKey, hT2, if_false, hN2, if_true]
      simp [hT2]
      aesop

theorem seenIds_step (getId : α → Option String) (item : α)
    (seenIds : List String) (kept : List α)
    (hId : ∀ s : String, s ∈ seenIds ↔ ∃ y ∈ kept, idKey getId y = some s) :
    ∀ s : String,
      s ∈ (if jsTruthyStr (getId item) then ((getId item).getD "") :: seenIds else seenIds) ↔
      ∃ y ∈ kept ++ [item], idKey getId y = some s := by
  intro s
  by_cases hT : jsTruthyStr (getId item) = true
  · simp only [hT, if_true, List.mem_cons, hId s, List.mem_append, List.not_mem_nil, or_false]
    constructor
    · rintro (rfl | ⟨y, hy, h⟩)
      · exact ⟨item, Or.inr rfl, by simp [idKey, hT]⟩
      · exact ⟨y, Or.inl hy, h⟩
    · rintro ⟨y, hy | rfl, h⟩
      · exact Or.inr ⟨y, hy, h⟩
      · simp only [idKey, hT, if_true, Option.some.injEq] at h
        exact Or.inl h.symm
  · have hT2 : jsTruthyStr (getId item) = false := by simpa using hT
    simp only [hT2, Bool.false_eq_true, if_false, hId s, List.mem_append,
      List.mem_cons, List.not_mem_nil, or_false]
    constructor
    · rintro ⟨y, hy, h⟩; exact ⟨y, Or.inl hy, h⟩
    · rintro ⟨y, hy | rfl, h⟩
      · exact ⟨y, hy, h⟩
      · simp [idKey, hT2] at h

theorem seenNames_step (getName : α → Option String) (item : α)
    (seenNames : List String) (kept : List α)
    (hName : ∀ s : String, s ∈ seenNames ↔ ∃ y ∈ kept, nameKey getName y = some s) :
    ∀ s : String,
      s ∈ (if norm (getName item) != "" then norm (getName item) :: seenNames else seenNames) ↔
      ∃ y ∈ kept ++ [item], nameKey getName y = some s := by
  intro s
  by_cases hN : norm (getName item) = ""
  · simp only [hN, bne_self_eq_false, Bool.false_eq_true, if_false, hName s,
      List.mem_append, List.mem_cons, List.not_mem_nil, or_false]
    constructor
    · rintro ⟨y, hy, h⟩; exact ⟨y, Or.inl hy, h⟩
    · rintro ⟨y, hy | rfl, h⟩
      · exact ⟨y, hy, h⟩
      · simp [nameKey, hN] at h
  · have hN2 : (norm (getName item) != "") = true := by simpa using hN
    simp only [hN2, if_true, List.mem_cons, hName s, List.mem_append,
      List.not_mem_nil, or_false]
    constructor
    · rintro (rfl | ⟨y, hy, h⟩)
      · exact ⟨item, Or.inr rfl, by simp [nameKey, hN2]⟩
      · exact ⟨y, Or.inl hy, h⟩
    · rintro ⟨y, hy | rfl, h⟩
      · exact Or.inr ⟨y, hy, h⟩
      · simp only [nameKey, hN2, if_true, Option.some.injEq] at h
        exact Or.inl h.symm

theorem snapshotDedupGo_eq_specGo (getId getName : α → Option String) :
    ∀ (items : List α) (seenIds seenNames : List String) (kept : List α),
    (∀ s : String, s ∈ seenIds ↔ ∃ y ∈ kept, idKey getId y = some s) →
    (∀ s : String, s ∈ seenNames ↔ ∃ y ∈ kept, nameKey getName y = some s) →
    snapshotDedupGo getId getName seenIds seenNames items =
      specDedupGo getId getName kept items := by
  intro items
  induction items with
  | nil => intro _ _ _ _ _; rfl
  | cons item rest ih =>
    intro seenIds seenNames kept hId hName
    simp only [snapshotDedupGo, specDedupGo]
    rw [dedupCond_eq_specCond getId getName item seenIds seenNames kept hId hName]
    cases hc : kept.any (fun y => keyClash getId getName y item)
    · simp only [Bool.false_eq_true, if_false]
      congr 1
      exact ih _ _ (kept ++ [item]) (seenIds_step getId item seenIds kept hId)
        (seenNames_step getName item seenNames kept hName)
    · simp only [if_true]
      exact ih _ _ kept hId hName

theorem snapshotDedup_eq_specDedup (items : List α) (getId getName : α → Option String) :
    snapshotDedup items getId getName = specDedup items getId getName := by
  apply snapshotDedupGo_eq_specGo <;> intro s <;> simp

/-- Predicate for items with a falsy id and a name that is empty after
trimming: these never take part in deduplication. -/
def idlessNameless (getId getName : α → Option String) (x : α) : Bool :=
  !jsTruthyStr (getId x) && (norm (getName x) == "")

theorem dedupGo_filter_idless (getId getName : α → Option String) :
    ∀ (items : List α) (seenIds seenNames : List String),
    (snapshotDedupGo getId getName seenIds seenNames items).filter
        (idlessNameless getId getName)
      = items.filter (idlessNameless getId getName) := by
  intro items
  induction items with
  | nil => intro _ _; rfl
  | cons item rest ih =>
    intro seenIds seenNames
    by_cases hp : idlessNameless getId getName item = true
    · have hparts := hp
      simp only [idlessNameless, Bool.and_eq_true, Bool.not_eq_eq_eq_not,
        Bool.not_true, beq_iff_eq] at hparts
      obtain ⟨hT, hN⟩ := hparts
      simp only [snapshotDedupGo, hT, hN, Bool.false_and, Bool.false_or,
        bne_self_eq_false, Bool.false_eq_true, if_false, List.filter_cons, hp,
        if_true, Bool.and_false]
      rw [ih]
    · have hp2 : idlessNameless getId getName item = false := by simpa using hp
      simp only [snapshotDedupGo]
      cases hc : (jsTruthyStr (getId item) &&
          seenIds.contains ((getId item).getD "") ||
          (norm (getName item) != "" && seenNames.contains (norm (getName item))))
      · simp only [Bool.false_eq_true, if_false, List.filter_cons, hp2,
          Bool.false_eq_true, if_false]
        rw [ih]
      · simp only [if_true, List.filter_cons, hp2, Bool.false_eq_true, if_false]
        rw [ih]

end Dedup

/-! ## Persisted data model (src/types.js) -/

/-- Persisted widgetState entry of a view (the fields the claims use). -/
structure PWidget where
  dataid : Option String
  serviceId : String
  url : String
  columns : Option Nat
  rows : Option Nat
  wtype : String
deriving DecidableEq, Repr

/-- A view of a board: id plus the persisted widget placement list. -/
structure View where
  id : String
  widgetState : List PWidget
deriving DecidableEq, Repr

/-- A board: stable id, display name, views. -/
structure Board where
  id : Option String
  name : Option String
  views : List View
deriving DecidableEq, Repr

/-- A service entry (fields relevant to the claims), with `maxInstances`
already carrying the template-resolved value where a claim needs one. -/
structure Service where
  id : Option String
  name : Option String
  url : Option String
  maxInstances : Option Int
deriving DecidableEq, Repr

/-- Accessor used by `mergeServices`: `s.id || s.url`. -/
def svcIdOrUrl (s : Service) : Option String :=
  if jsTruthyStr s.id then s.id else s.url

/-- Embedding of `mergeBoards` (src/utils/merge.js). -/
def mergeBoards (existingBoards newBoards : List Board) : List Board :=
  Dedup.snapshotDedup (existingBoards ++ newBoards) Board.id Board.name

/-- Embedding of `mergeServices` (src/utils/merge.js). -/
def mergeServices (existingServices newServices : List Service) : List Service :=
  Dedup.snapshotDedup (existingServices ++ newServices) svcIdOrUrl Service.name

/-- C7: `mergeBoards`/`mergeServices` return the concatenation
existing++incoming deduplicated preserving first occurrence, where an item is
dropped if and only if its truthy stable id (board id; service id-or-url) or
its nonempty trimmed lower-cased name has already been seen in an earlier kept
item; in particular two boards with the same id keep only the first, and two
boards with different ids but the same normalized name keep only the first. -/
theorem claim_C7_merge_dedup_first_occurrence :
    (∀ existingBoards newBoards : List Board,
      mergeBoards existingBoards newBoards =
        Dedup.specDedup (existingBoards ++ newBoards) Board.id Board.name)
  ∧ (∀ existingServices newServices : List Service,
      mergeServices existingServices newServices =
        Dedup.specDedup (existingServices ++ newServices) svcIdOrUrl Service.name)
  ∧ mergeBoards [{ id := some "b1", name := some "Work", views := [] }]
      [{ id := some "b1", name := some "Work-renamed", views := [] }] =
      [{ id := some "b1", name := some "Work", views := [] }]
  ∧ mergeBoards [{ id := some "b1", name := some "X", views := [] }]
      [{ id := some "b2", name := some "X", views := [] }] =
      [{ id := some "b1", name := some "X", views := [] }] := by
  refine ⟨fun a b => Dedup.snapshotDedup_eq_specDedup _ _ _,
    fun a b => Dedup.snapshotDedup_eq_specDedup _ _ _, ?_, ?_⟩ <;> decide

/-- C9: snapshotDedup (hence mergeBoards/mergeServices) never drops an item
whose id accessor is falsy and whose name normalizes to the empty string; all
such items survive, with multiplicity, because only truthy ids and nonempty
normalized names participate in deduplication. -/
theorem claim_C9_dedup_keeps_idless_nameless :
    (∀ (α : Type) (items : List α) (getId getName : α → Option String),
      (Dedup.snapshotDedup items getId getName).filter
          (Dedup.idlessNameless getId getName)
        = items.filter (Dedup.idlessNameless getId getName))
  ∧ (∀ existingBoards newBoards : List Board,
      (mergeBoards existingBoards newBoards).filter
          (Dedup.idlessNameless Board.id Board.name)
        = (existingBoards ++ newBoards).filter
            (Dedup.idlessNameless Board.id Board.name)) := by
  constructor
  · intro α items getId getName
    exact Dedup.dedupGo_filter_idless getId getName items [] []
  · intro a b
    exact Dedup.dedupGo_filter_idless Board.id Board.name (a ++ b) [] []

/-! ## JS Map model (insertion-ordered association list, unique keys) -/

/-- JS `Map.get`: value of the first entry with the key. -/
def mapGet (m : List (String × β)) (k : String) : Option β :=
  (m.find? (fun p => p.1 == k)).map (fun p => p.2)

/-- JS `Map.has`. -/
def mapHas (m : List (String × β)) (k : String) : Bool :=
  m.any (fun p => p.1 == k)

/-- JS `Map.delete`: remove the entry with the key (first occurrence). -/
def mapDelete (m : List (String × β)) (k : String) : List (String × β) :=
  match m with
  | [] => []
  | (k2, v) :: rest => if k2 == k then rest else (k2, v) :: mapDelete rest k

/-- JS `Map.set`: update the existing entry in place, else append at the end
(insertion order). -/
def mapSet (m : List (String × β)) (k : String) (v : β) : List (String × β) :=
  match m with
  | [] => [(k, v)]
  | (k2, v2) :: rest =>
    if k2 == k then (k, v) :: rest else (k2, v2) :: mapSet rest k v

/-- Keys of a map are duplicate-free (always true of a real JS Map). -/
def keysNodup (m : List (String × β)) : Prop := (m.map Prod.fst).Nodup

theorem mapGet_cons (ka : String) (va : β) (rest : List (String × β)) (k : String) :
    mapGet ((ka, va) :: rest) k = if ka == k then some va else mapGet rest k := by
  by_cases h : (ka == k) = true
  · rw [if_pos h]
    simp [mapGet, List.find?_cons_of_pos, h]
  · have h2 : (ka == k) = false := by simpa using h
    rw [if_neg (by simp [h2])]
    simp only [mapGet]
    rw [List.find?_cons_of_neg]
    simpa using h2

theorem mapHas_cons (ka : String) (va : β) (rest : List (String × β)) (k : String) :
    mapHas ((ka, va) :: rest) k = ((ka == k) || mapHas rest k) := by
  simp [mapHas]

theorem mapGet_mapSet_self (m : List (String × β)) (k : String) (v : β) :
    mapGet (mapSet m k v) k = some v := by
  induction m with
  | nil => simp [mapSet, mapGet_cons, mapGet]
  | cons p rest ih =>
    obtain ⟨k2, v2⟩ := p
    by_cases h : (k2 == k) = true
    · simp [mapSet, h, mapGet_cons]
    · have h2 : (k2 == k) = false := by simpa using h
      simp [mapSet, h2, mapGet_cons, ih]

theorem mapGet_mapSet_ne (m : List (String × β)) (k k2 : String) (v : β)
    (h : k2 ≠ k) : mapGet (mapSet m k v) k2 = mapGet m k2 := by
  have hkk : (k == k2) = false := by simp [beq_iff_eq]; exact Ne.symm h
  induction m with
  | nil => simp [mapSet, mapGet_cons, hkk, mapGet]
  | cons p rest ih =>
    obtain ⟨ka, va⟩ := p
    by_cases ha : (ka == k) = true
    · have hk : ka = k := by simpa using ha
      subst hk
      simp [mapSet, ha, mapGet_cons, hkk]
    · have ha2 : (ka == k) = false := by simpa using ha
      simp [mapSet, ha2, mapGet_cons, ih]

theorem mapGet_mapDelete_ne (m : List (String × β)) (k k2 : String)
    (h : k2 ≠ k) : mapGet (mapDelete m k) k2 = mapGet m k2 := by
  induction m with
  | nil => simp [mapDelete]
  | cons p rest ih =>
    obtain ⟨ka, va⟩ := p
    by_cases ha : (ka == k) = true
    · have hk : ka = k := by simpa using ha
      subst hk
      have hkk : (ka == k2) = false := by simp [beq_iff_eq]; exact Ne.symm h
      simp [mapDelete, mapGet_cons, hkk]
    · have ha2 : (ka == k) = false := by simpa using ha
      simp [mapDelete, ha2, mapGet_cons, ih]

theorem mem_mapSet (m : List (String × β)) (k : String) (v : β) (x : String × β)
    (hx : x ∈ mapSet m k v) : x = (k, v) ∨ x ∈ m := by
  induction m with
  | nil => simpa [mapSet] using hx
  | cons p rest ih =>
    obtain ⟨ka, va⟩ := p
    by_cases ha : (ka == k) = true
    · simp only [mapSet, ha, if_true, List.mem_cons] at hx
      rcases hx with h | h
      · exact Or.inl h
      · exact Or.inr (List.mem_cons_of_mem _ h)
    · have ha2 : (ka == k) = false := by simpa using ha
      simp only [mapSet, ha2, Bool.false_eq_true, if_false, List.mem_cons] at hx
      rcases hx with h | h
      · exact Or.inr (by simp [h])
      · rcases ih h with h2 | h2
        · exact Or.inl h2
        · exact Or.inr (List.mem_cons_of_mem _ h2)

theorem mem_mapDelete (m : List (String × β)) (k : String) (x : String × β)
    (hx : x ∈ mapDelete m k) : x ∈ m := by
  induction m with
  | nil => simpa [mapDelete] using hx
  | cons p rest ih =>
    obtain ⟨ka, va⟩ := p
    by_cases ha : (ka == k) = true
    · simp only [mapDelete, ha, if_true] at hx
      exact List.mem_cons_of_mem _ hx
    · have ha2 : (ka == k) = false := by simpa using ha
      simp only [mapDelete, ha2, Bool.false_eq_true, if_false, List.mem_cons] at hx
      rcases hx with h | h
      · simp [h]
      · exact List.mem_cons_of_mem _ (ih h)

theorem mapHas_iff_get (m : List (String × β)) (k : String) :
    mapHas m k = true ↔ ∃ v, mapGet m k = some v := by
  induction m with
  | nil => simp [mapHas, mapGet]
  | cons p rest ih =>
    obtain ⟨ka, va⟩ := p
    by_cases ha : (ka == k) = true
    · simp [mapHas_cons, mapGet_cons, ha]
    · have ha2 : (ka == k) = false := by simpa using ha
      simp [mapHas_cons, mapGet_cons, ha2, ih]

theorem mapSet_length (m : List (String × β)) (k : String) (v : β) :
    (mapSet m k v).length = if mapHas m k then m.length else m.length + 1 := by
  induction m with
  | nil => simp [mapSet, mapHas]
  | cons p rest ih =>
    obtain ⟨ka, va⟩ := p
    by_cases ha : (ka == k) = true
    · simp [mapSet, mapHas_cons, ha]
    · have ha2 : (ka == k) = false := by simpa using ha
      simp only [mapSet, ha2, Bool.false_eq_true, if_false, List.length_cons,
        mapHas_cons, Bool.false_or, ih]
      by_cases hh : mapHas rest k = true <;> simp [hh]

theorem mapDelete_length (m : List (String × β)) (k : String) :
    (mapDelete m k).length =
      if mapHas m k then m.length - 1 else m.length := by
  induction m with
  | nil => simp [mapDelete, mapHas]
  | cons p rest ih =>
    obtain ⟨ka, va⟩ := p
    by_cases ha : (ka == k) = true
    · simp [mapDelete, mapHas_cons, ha]
    · have ha2 : (ka == k) = false := by simpa using ha
      simp only [mapDelete, ha2, Bool.false_eq_true, if_false, List.length_cons,
        mapHas_cons, Bool.false_or, ih]
      by_cases hh : mapHas rest k = true
      · simp only [hh, if_true]
        have h1 : 1 ≤ rest.length := by
          rcases (mapHas_iff_get rest k).1 hh with ⟨v, hv⟩
          cases rest with
          | nil => simp [mapGet] at hv
          | cons q t => simp
        omega
      · simp [hh]

theorem mapSet_append_of_not_has (m : List (String × β)) (k : String) (v : β)
    (h : mapHas m k = false) : mapSet m k v = m ++ [(k, v)] := by
  induction m with
  | nil => simp [mapSet]
  | cons p rest ih =>
    obtain ⟨ka, va⟩ := p
    rw [mapHas_cons, Bool.or_eq_false_iff] at h
    simp only [mapSet, h.1, Bool.false_eq_true, if_false, List.cons_append]
    rw [ih h.2]

theorem mapHas_mapDelete_of_nodup (m : List (String × β)) (k : String)
    (h : keysNodup m) : mapHas (mapDelete m k) k = false := by
  induction m with
  | nil => simp [mapDelete, mapHas]
  | cons p rest ih =>
    obtain ⟨ka, va⟩ := p
    simp only [keysNodup, List.map_cons, List.nodup_cons] at h
    by_cases ha : (ka == k) = true
    · have hk : ka = k := by simpa using ha
      subst hk
      simp only [mapDelete, beq_self_eq_true, if_true, mapHas]
      rw [Bool.eq_false_iff]
      intro hc
      rcases List.any_eq_true.1 hc with ⟨p2, hp2, he⟩
      exact h.1 (by simpa [← (beq_iff_eq.1 he)] using List.mem_map_of_mem Prod.fst hp2)
    · have ha2 : (ka == k) = false := by simpa using ha
      simp only [mapDelete, ha2, Bool.false_eq_true, if_false, mapHas_cons,
        Bool.or_eq_false_iff]
      exact ⟨trivial, ih h.2⟩

/-! ## WidgetStore (src/component/widget/widgetManagement.js, class WidgetStore) -/

namespace Store

/-- Live DOM widget element: the dataset fields the store and `addWidget`
read and write (`style.display` is the `display` field). -/
structure WEl where
  dataid : String
  service : String
  url : String
  display : String
  order : Nat
deriving DecidableEq, Repr

/-- State of a `WidgetStore` instance: capacity, the `widgets` Map, and the
`_serviceLocks` Map. -/
structure WidgetStoreSt where
  maxSize : Nat
  widgets : List (String × WEl)
  serviceLocks : List (String × Int)
deriving DecidableEq, Repr

/-- Fresh store as built by the constructor (default capacity 10). -/
def emptyStore (ms : Nat) : WidgetStoreSt :=
  { maxSize := ms, widgets := [], serviceLocks := [] }

/-- Embedding of `_ensureLimit`: while over capacity, evict the entry at the
front of the insertion order (the oldest key). -/
def ensureLimit (ms : Nat) (w : List (String × WEl)) : List (String × WEl) :=
  match w with
  | [] => []
  | x :: rest =>
    if (x :: rest).length > ms then ensureLimit ms (mapDelete (x :: rest) x.1)
    else x :: rest
termination_by w.length
decreasing_by simp [mapDelete]

/-- Embedding of `WidgetStore.add`: no-op for a falsy id, refresh an existing
entry (delete + set moves it to most-recent), then enforce the capacity. -/
def storeAdd (s : WidgetStoreSt) (el : WEl) : WidgetStoreSt :=
  let id := el.dataid
  if id == "" then s
  else
    let w1 := if mapHas s.widgets id then mapDelete s.widgets id else s.widgets
    { s with widgets := ensureLimit s.maxSize (mapSet w1 id el) }

/-- Embedding of `WidgetStore.get`: return the element and mark it most
recently used (the `has` guard of the source is folded into the match). -/
def storeGet (s : WidgetStoreSt) (id : String) : Option WEl × WidgetStoreSt :=
  match mapGet s.widgets id with
  | none => (none, s)
  | some el =>
    (some el, { s with widgets := mapSet (mapDelete s.widgets id) id el })

/-- Embedding of `WidgetStore.show`: `get` (touching recency) then clear the
element display style. -/
def storeShow (s : WidgetStoreSt) (id : String) : WidgetStoreSt :=
  match storeGet s id with
  | (none, s2) => s2
  | (some el, s2) =>
    { s2 with widgets := mapSet s2.widgets id { el with display := "" } }

/-- Embedding of `WidgetStore.hide`: raw `Map.get` (recency untouched) then
set the element display style to none. -/
def storeHide (s : WidgetStoreSt) (id : String) : WidgetStoreSt :=
  match mapGet s.widgets id with
  | none => s
  | some el =>
    { s with widgets := mapSet s.widgets id { el with display := "none" } }

/-- Operations interleaved in a widget-store session. -/
inductive StoreOp where
  | add (el : WEl)
  | get (id : String)
  | showEl (id : String)
  | hideEl (id : String)
deriving DecidableEq, Repr

/-- Run a sequence of store operations. -/
def runStoreOps (s : WidgetStoreSt) : List StoreOp → WidgetStoreSt
  | [] => s
  | op :: rest =>
    runStoreOps
      (match op with
        | .add el => storeAdd s el
        | .get id => (storeGet s id).2
        | .showEl id => storeShow s id
        | .hideEl id => storeHide s id) rest

theorem ensureLimit_eq_drop (ms : Nat) :
    ∀ w : List (String × WEl), ensureLimit ms w = w.drop (w.length - ms) := by
  intro w
  induction w with
  | nil => simp [ensureLimit]
  | cons x rest ih =>
    by_cases h : (x :: rest).length > ms
    · have hd : mapDelete (x :: rest) x.1 = rest := by
        obtain ⟨k, v⟩ := x
        simp [mapDelete]
      rw [ensureLimit, if_pos h, hd, ih]
      have hms : ms ≤ rest.length := by
        simp only [List.length_cons] at h
        omega
      have harith : (x :: rest).length - ms = (rest.length - ms) + 1 := by
        simp only [List.length_cons]
        omega
      rw [harith, List.drop_succ_cons]
    · rw [ensureLimit, if_neg h]
      have hle : (x :: rest).length - ms = 0 := by omega
      rw [hle, List.drop_zero]

theorem ensureLimit_length_le (ms : Nat) (w : List (String × WEl)) :
    (ensureLimit ms w).length ≤ ms := by
  rw [ensureLimit_eq_drop, List.length_drop]
  omega

theorem storeAdd_length_le (s : WidgetStoreSt) (el : WEl)
    (h : s.widgets.length ≤ s.maxSize) :
    (storeAdd s el).widgets.length ≤ s.maxSize := by
  by_cases hid : (el.dataid == "") = true
  · simpa [storeAdd, hid] using h
  · have hid2 : (el.dataid == "") = false := by simpa using hid
    simp only [storeAdd, hid2, Bool.false_eq_true, if_false]
    exact ensureLimit_length_le _ _

theorem storeGet_length_le (s : WidgetStoreSt) (id : String)
    (h : s.widgets.length ≤ s.maxSize) :
    ((storeGet s id).2).widgets.length ≤ s.maxSize := by
  cases hg : mapGet s.widgets id with
  | none => simpa [storeGet, hg] using h
  | some el =>
    have hhas : mapHas s.widgets id = true :=
      (mapHas_iff_get _ _).2 ⟨el, hg⟩
    simp only [storeGet, hg]
    rw [mapSet_length, mapDelete_length, hhas]
    have h1 : 1 ≤ s.widgets.length := by
      rcases (mapHas_iff_get s.widgets id).1 hhas with ⟨v, hv⟩
      cases hw : s.widgets with
      | nil => rw [hw] at hv; simp [mapGet] at hv
      | cons q t => simp [hw]
    by_cases hh : mapHas (mapDelete s.widgets id) id = true <;> simp [hh] <;> omega

theorem storeShow_length_le (s : WidgetStoreSt) (id : String)
    (h : s.widgets.length ≤ s.maxSize) :
    (storeShow s id).widgets.length ≤ s.maxSize := by
  cases hg : mapGet s.widgets id with
  | none => simpa [storeShow, storeGet, hg] using h
  | some el =>
    have hhas : mapHas s.widgets id = true :=
      (mapHas_iff_get _ _).2 ⟨el, hg⟩
    simp only [storeShow, storeGet, hg]
    have hhas2 : mapHas (mapSet (mapDelete s.widgets id) id el) id = true :=
      (mapHas_iff_get _ _).2 ⟨el, mapGet_mapSet_self _ _ _⟩
    rw [mapSet_length, if_pos hhas2, mapSet_length, mapDelete_length, hhas]
    have h1 : 1 ≤ s.widgets.length := by
      rcases (mapHas_iff_get s.widgets id).1 hhas with ⟨v, hv⟩
      cases hw : s.widgets with
      | nil => rw [hw] at hv; simp [mapGet] at hv
      | cons q t => simp [hw]
    by_cases hh : mapHas (mapDelete s.widgets id) id = true <;> simp [hh] <;> omega

theorem storeHide_length_le (s : WidgetStoreSt) (id : String)
    (h : s.widgets.length ≤ s.maxSize) :
    (storeHide s id).widgets.length ≤ s.maxSize := by
  cases hg : mapGet s.widgets id with
  | none => simpa [storeHide, hg] using h
  | some el =>
    have hhas : mapHas s.widgets id = true :=
      (mapHas_iff_get _ _).2 ⟨el, hg⟩
    simp only [storeHide, hg]
    rw [mapSet_length, if_pos hhas]
    exact h

theorem storeAdd_maxSize (s : WidgetStoreSt) (el : WEl) :
    (storeAdd s el).maxSize = s.maxSize := by
  by_cases hid : (el.dataid == "") = true <;> simp [storeAdd, hid]

theorem storeGet_maxSize (s : WidgetStoreSt) (id : String) :
    ((storeGet s id).2).maxSize = s.maxSize := by
  cases hg : mapGet s.widgets id <;> simp [storeGet, hg]

theorem storeShow_maxSize (s : WidgetStoreSt) (id : String) :
    (storeShow s id).maxSize = s.maxSize := by
  cases hg : mapGet s.widgets id <;> simp [storeShow, storeGet, hg]

theorem storeHide_maxSize (s : WidgetStoreSt) (id : String) :
    (storeHide s id).maxSize = s.maxSize := by
  cases hg : mapGet s.widgets id <;> simp [storeHide, hg]

theorem runStoreOps_length_le (ms : Nat) :
    ∀ (ops : List StoreOp) (s : WidgetStoreSt),
      s.maxSize = ms → s.widgets.length ≤ ms →
      (runStoreOps s ops).widgets.length ≤ ms := by
  intro ops
  induction ops with
  | nil => intro s hms h; simpa [runStoreOps] using h
  | cons op rest ih =>
    intro s hms h
    cases op with
    | add el =>
      exact ih _ (by rw [storeAdd_maxSize, hms])
        (by rw [← hms] at h ⊢; exact storeAdd_length_le s el h)
    | get id =>
      exact ih _ (by rw [storeGet_maxSize, hms])
        (by rw [← hms] at h ⊢; exact storeGet_length_le s id h)
    | showEl id =>
      exact ih _ (by rw [storeShow_maxSize, hms])
        (by rw [← hms] at h ⊢; exact storeShow_length_le s id h)
    | hideEl id =>
      exact ih _ (by rw [storeHide_maxSize, hms])
        (by rw [← hms] at h ⊢; exact storeHide_length_le s id h)

/-- Interim widget list built by `add` before the capacity pass: refresh the
entry (delete when present) and set it at the most-recent position. -/
def addInterim (s : WidgetStoreSt) (el : WEl) : List (String × WEl) :=
  mapSet (if mapHas s.widgets el.dataid then mapDelete s.widgets el.dataid
    else s.widgets) el.dataid el

/-- Sample element used in witnesses. -/
def elA : WEl := { dataid := "a", service := "svcA", url := "https://a", display := "", order := 0 }

/-- Sample element used in witnesses. -/
def elB : WEl := { dataid := "b", service := "svcB", url := "https://b", display := "", order := 1 }

/-- Sample element used in witnesses. -/
def elC : WEl := { dataid := "c", service := "svcC", url := "https://c", display := "", order := 2 }

/-- Sample two-element store at capacity 2 used in witnesses. -/
def st2 : WidgetStoreSt :=
  { maxSize := 2, widgets := [("a", elA), ("b", elB)], serviceLocks := [] }

end Store

/-- C3: after any sequence of widget-store operations starting from a fresh
store, the widget map never exceeds `maxSize` (checked after every add);
an add with a truthy dataid keeps exactly the most recent `maxSize` entries of
the interim insertion order, so each evicted entry is the one at the front of
the map's insertion order; and `get` on a present id moves that entry to the
most-recent (back) position. -/
theorem claim_C3_widget_store_capacity_lru :
    (∀ (ms : Nat) (ops : List Store.StoreOp),
      (Store.runStoreOps (Store.emptyStore ms) ops).widgets.length ≤ ms)
  ∧ (∀ (s : Store.WidgetStoreSt) (el : Store.WEl), el.dataid ≠ "" →
      (Store.storeAdd s el).widgets =
        (Store.addInterim s el).drop
          ((Store.addInterim s el).length - s.maxSize))
  ∧ (∀ (s : Store.WidgetStoreSt) (id : String) (el : Store.WEl),
      keysNodup s.widgets → mapGet s.widgets id = some el →
      ((Store.storeGet s id).2).widgets = mapDelete s.widgets id ++ [(id, el)]) := by
  refine ⟨?_, ?_, ?_⟩
  · intro ms ops
    exact Store.runStoreOps_length_le ms ops (Store.emptyStore ms) rfl (by simp [Store.emptyStore])
  · intro s el hid
    have hid2 : (el.dataid == "") = false := by simpa using hid
    simp only [Store.storeAdd, hid2, Bool.false_eq_true, if_false, Store.addInterim]
    exact Store.ensureLimit_eq_drop _ _
  · intro s id el hnd hg
    simp only [Store.storeGet, hg]
    exact mapSet_append_of_not_has _ _ _ (mapHas_mapDelete_of_nodup _ _ hnd)

/-- Witness for C3 at concrete inputs: an add over capacity evicts the front
entry, and a get moves the entry to the back. -/
theorem claim_C3_widget_store_capacity_lru_witness :
    (Store.storeAdd Store.st2 Store.elC).widgets =
      [("b", Store.elB), ("c", Store.elC)] ∧
    ((Store.storeGet Store.st2 "a").2).widgets =
      [("b", Store.elB), ("a", Store.elA)] := by
  constructor
  · have h := claim_C3_widget_store_capacity_lru.2.1 Store.st2 Store.elC
      (by decide)
    rw [h]
    decide
  · have h := claim_C3_widget_store_capacity_lru.2.2 Store.st2 "a" Store.elA
      (by show (Store.st2.widgets.map Prod.fst).Nodup; decide) (by decide)
    rw [h]
    decide

theorem mapGet_some_exists_mem (m : List (String × β)) (k : String) (v : β)
    (h : mapGet m k = some v) : ∃ p ∈ m, p.2 = v := by
  simp only [mapGet] at h
  cases hf : List.find? (fun p => p.1 == k) m with
  | none => rw [hf] at h; simp at h
  | some p =>
    rw [hf] at h
    have h2 : p.2 = v := by simpa using h
    exact ⟨p, List.mem_of_find?_eq_some hf, h2⟩

theorem mapDelete_sublist (m : List (String × β)) (k : String) :
    (mapDelete m k).Sublist m := by
  induction m with
  | nil => simp [mapDelete]
  | cons p rest ih =>
    obtain ⟨ka, va⟩ := p
    by_cases ha : (ka == k) = true
    · simp only [mapDelete, ha, if_true]
      exact List.sublist_cons_self _ _
    · have ha2 : (ka == k) = false := by simpa using ha
      simp only [mapDelete, ha2, Bool.false_eq_true, if_false]
      exact List.Sublist.cons₂ _ ih

theorem keysNodup_mapDelete (m : List (String × β)) (k : String)
    (h : keysNodup m) : keysNodup (mapDelete m k) :=
  ((mapDelete_sublist m k).map Prod.fst).nodup h

theorem keysNodup_mapSet (m : List (String × β)) (k : String) (v : β)
    (h : keysNodup m) : keysNodup (mapSet m k v) := by
  induction m with
  | nil => simp [mapSet, keysNodup]
  | cons p rest ih =>
    obtain ⟨ka, va⟩ := p
    simp only [keysNodup, List.map_cons, List.nodup_cons] at h
    by_cases ha : (ka == k) = true
    · have hk : ka = k := by simpa using ha
      subst hk
      simpa [mapSet, ha, keysNodup] using h
    · have ha2 : (ka == k) = false := by simpa using ha
      simp only [mapSet, ha2, Bool.false_eq_true, if_false, keysNodup,
        List.map_cons, List.nodup_cons]
      refine ⟨?_, ih h.2⟩
      intro hc
      rcases List.mem_map.1 hc with ⟨x, hx, hfx⟩
      rcases mem_mapSet rest k v x hx with h2 | h2
      · subst h2
        simp only [← hfx] at ha2
        simp at ha2
      · exact h.1 (by rw [← hfx]; exact List.mem_map_of_mem Prod.fst h2)

theorem mapHas_false_mapDelete (m : List (String × β)) (k : String)
    (h : mapHas m k = false) : mapHas (mapDelete m k) k = false := by
  rw [Bool.eq_false_iff] at h ⊢
  intro hc
  apply h
  rcases List.any_eq_true.1 hc with ⟨p, hp, he⟩
  exact List.any_eq_true.2 ⟨p, (mapDelete_sublist m k).mem hp, he⟩

/-! ## Per-service add locks (WidgetStore.lock / unlock / isAdding) -/

namespace Store

/-- Embedding of `WidgetStore.lock`: bump the ref-count for the service. -/
def lockSvc (m : List (String × Int)) (name : String) : List (String × Int) :=
  mapSet m name (((mapGet m name).getD 0) + 1)

/-- Embedding of `WidgetStore.unlock`: decrement (absent counts as 1); delete
the entry when the result is zero. -/
def unlockSvc (m : List (String × Int)) (name : String) : List (String × Int) :=
  let n := ((mapGet m name).getD 1) - 1
  if n == 0 then mapDelete m name else mapSet m name n

/-- Embedding of `WidgetStore.isAdding`. -/
def isAdding (m : List (String × Int)) (name : String) : Bool := mapHas m name

/-- A lock or unlock call for a service name. -/
inductive LockOp where
  | lock (name : String)
  | unlock (name : String)
deriving DecidableEq, Repr

/-- Run a sequence of lock/unlock calls against a lock map. -/
def runLockOps (m : List (String × Int)) : List LockOp → List (String × Int)
  | [] => m
  | .lock n :: rest => runLockOps (lockSvc m n) rest
  | .unlock n :: rest => runLockOps (unlockSvc m n) rest

/-- Number of `lock name` calls in a sequence. -/
def lockCount (name : String) (ops : List LockOp) : Nat :=
  ops.countP (fun o => match o with | .lock n => n == name | .unlock _ => false)

/-- Number of `unlock name` calls in a sequence. -/
def unlockCount (name : String) (ops : List LockOp) : Nat :=
  ops.countP (fun o => match o with | .unlock n => n == name | .lock _ => false)

/-- Every prefix of the sequence keeps the running lock balance for `name`
nonnegative (no unlock without a matching earlier lock). -/
def prefixBalanced (name : String) : Int → List LockOp → Bool
  | _, [] => true
  | c, .lock n :: rest =>
    prefixBalanced name (if n == name then c + 1 else c) rest
  | c, .unlock n :: rest =>
    if n == name then
      if c - 1 < 0 then false else prefixBalanced name (c - 1) rest
    else prefixBalanced name c rest

theorem lock_entries_ge_one (m : List (String × Int)) (name : String)
    (h : ∀ p ∈ m, 1 ≤ p.2) : ∀ p ∈ lockSvc m name, 1 ≤ p.2 := by
  intro p hp
  rcases mem_mapSet m name _ p hp with h2 | h2
  · subst h2
    cases hg : mapGet m name with
    | none => simp [hg]
    | some v =>
      rcases mapGet_some_exists_mem m name v hg with ⟨q, hq, hv⟩
      have := h q hq
      simp only [hg, Option.getD_some]
      omega
  · exact h p h2

theorem unlock_entries_ge_one (m : List (String × Int)) (name : String)
    (h : ∀ p ∈ m, 1 ≤ p.2) : ∀ p ∈ unlockSvc m name, 1 ≤ p.2 := by
  intro p hp
  simp only [unlockSvc] at hp
  by_cases hz : ((((mapGet m name).getD 1) - 1) == 0) = true
  · rw [if_pos hz] at hp
    exact h p ((mapDelete_sublist m name).mem hp)
  · have hz2 : ((((mapGet m name).getD 1) - 1) == 0) = false := by simpa using hz
    rw [hz2] at hp
    simp only [Bool.false_eq_true, if_false] at hp
    rcases mem_mapSet m name _ p hp with h2 | h2
    · subst h2
      cases hg : mapGet m name with
      | none => simp [hg] at hz2 ⊢
      | some v =>
        rcases mapGet_some_exists_mem m name v hg with ⟨q, hq, hv⟩
        have hvge := h q hq
        rw [hg] at hz2
        simp only [Option.getD_some] at hz2
        simp only [hg, Option.getD_some]
        have hnz : ¬(v - 1 = 0) := by
          intro hc
          rw [hc] at hz2
          simp at hz2
        omega
    · exact h p h2

theorem mapGet_none_of_not_has (m : List (String × β)) (k : String)
    (h : mapHas m k = false) : mapGet m k = none := by
  cases hg : mapGet m k with
  | none => rfl
  | some v =>
    rw [(mapHas_iff_get m k).2 ⟨v, hg⟩] at h
    cases h

theorem runLockOps_balanced (name : String) :
    ∀ (ops : List LockOp) (m : List (String × Int)) (c : Int),
    keysNodup m → 0 ≤ c →
    (if c = 0 then mapGet m name = none else mapGet m name = some c) →
    prefixBalanced name c ops = true →
    keysNodup (runLockOps m ops) ∧
    (if c + (lockCount name ops : Int) - (unlockCount name ops : Int) = 0
      then mapGet (runLockOps m ops) name = none
      else mapGet (runLockOps m ops) name =
        some (c + (lockCount name ops : Int) - (unlockCount name ops : Int))) := by
  intro ops
  induction ops with
  | nil =>
    intro m c hnd hc hget _
    simp only [runLockOps, lockCount, unlockCount, List.countP_nil,
      Nat.cast_zero, add_zero, sub_zero]
    exact ⟨hnd, hget⟩
  | cons op rest ih =>
    intro m c hnd hc hget hbal
    cases op with
    | lock n =>
      have hcount : ∀ d : Int,
          d + (lockCount name (LockOp.lock n :: rest) : Int) -
            (unlockCount name (LockOp.lock n :: rest) : Int) =
          (d + if (n == name) = true then 1 else 0) + (lockCount name rest : Int) -
            (unlockCount name rest : Int) := by
        intro d
        simp only [lockCount, unlockCount, List.countP_cons]
        by_cases hn : (n == name) = true <;> simp [hn] <;> push_cast <;> ring
      by_cases hn : (n == name) = true
      · have hname : n = name := by simpa using hn
        subst hname
        simp only [runLockOps]
        rw [hcount c, if_pos hn]
        simp only [prefixBalanced, hn, if_true] at hbal
        refine ih (lockSvc m n) (c + 1) (keysNodup_mapSet m n _ hnd) (by omega)
          ?_ hbal
        rw [if_neg (by omega)]
        by_cases hc0 : c = 0
        · rw [if_pos hc0] at hget
          subst hc0
          simp [lockSvc, hget, mapGet_mapSet_self]
        · rw [if_neg hc0] at hget
          simp [lockSvc, hget, mapGet_mapSet_self]
      · have hn2 : (n == name) = false := by simpa using hn
        have hnn : name ≠ n := by
          intro hc2
          rw [hc2] at hn2
          simp at hn2
        simp only [runLockOps]
        rw [hcount c]
        simp only [hn2, Bool.false_eq_true, if_false, add_zero]
        simp only [prefixBalanced, hn2, Bool.false_eq_true, if_false] at hbal
        refine ih (lockSvc m n) c (keysNodup_mapSet m n _ hnd) hc ?_ hbal
        rwa [lockSvc, mapGet_mapSet_ne m n name _ hnn]
    | unlock n =>
      have hcount : ∀ d : Int,
          d + (lockCount name (LockOp.unlock n :: rest) : Int) -
            (unlockCount name (LockOp.unlock n :: rest) : Int) =
          (d - if (n == name) = true then 1 else 0) + (lockCount name rest : Int) -
            (unlockCount name rest : Int) := by
        intro d
        simp only [lockCount, unlockCount, List.countP_cons]
        by_cases hn : (n == name) = true <;> simp [hn] <;> push_cast <;> ring
      by_cases hn : (n == name) = true
      · have hname : n = name := by simpa using hn
        subst hname
        simp only [prefixBalanced, hn, if_true] at hbal
        by_cases hneg : c - 1 < 0
        · rw [if_pos hneg] at hbal
          cases hbal
        · rw [if_neg hneg] at hbal
          have hc1 : 1 ≤ c := by omega
          have hgetc : mapGet m n = some c := by
            rw [if_neg (by omega)] at hget
            exact hget
          simp only [runLockOps]
          rw [hcount c, if_pos hn]
          by_cases hceq : c = 1
          · subst hceq
            have hdel : unlockSvc m n = mapDelete m n := by
              simp [unlockSvc, hgetc]
            rw [hdel]
            refine ih (mapDelete m n) 0 (keysNodup_mapDelete m n hnd)
              (by omega) ?_ (by simpa using hbal)
            rw [if_pos rfl]
            exact mapGet_none_of_not_has _ _ (mapHas_mapDelete_of_nodup m n hnd)
          · have hset : unlockSvc m n = mapSet m n (c - 1) := by
              simp only [unlockSvc, hgetc, Option.getD_some]
              rw [if_neg (by simp [sub_eq_zero]; omega)]
            rw [hset]
            refine ih (mapSet m n (c - 1)) (c - 1)
              (keysNodup_mapSet m n _ hnd) (by omega) ?_ hbal
            rw [if_neg (by omega)]
            exact mapGet_mapSet_self m n (c - 1)
      · have hn2 : (n == name) = false := by simpa using hn
        have hnn : name ≠ n := by
          intro hc2
          rw [hc2] at hn2
          simp at hn2
        simp only [prefixBalanced, hn2, Bool.false_eq_true, if_false] at hbal
        simp only [runLockOps]
        rw [hcount c]
        simp only [hn2, Bool.false_eq_true, if_false, sub_zero]
        have hpres : mapGet (unlockSvc m n) name = mapGet m name := by
          simp only [unlockSvc]
          by_cases hz : ((((mapGet m n).getD 1) - 1) == 0) = true
          · rw [if_pos hz]
            exact mapGet_mapDelete_ne m n name hnn
          · rw [if_neg hz]
            exact mapGet_mapSet_ne m n name _ hnn
        have hndu : keysNodup (unlockSvc m n) := by
          simp only [unlockSvc]
          by_cases hz : ((((mapGet m n).getD 1) - 1) == 0) = true
          · rw [if_pos hz]
            exact keysNodup_mapDelete m n hnd
          · rw [if_neg hz]
            exact keysNodup_mapSet m n _ hnd
        refine ih (unlockSvc m n) c hndu hc ?_ hbal
        rwa [hpres]

theorem runLockOps_entries_ge_one :
    ∀ (ops : List LockOp) (m : List (String × Int)),
    (∀ p ∈ m, 1 ≤ p.2) → ∀ p ∈ runLockOps m ops, 1 ≤ p.2 := by
  intro ops
  induction ops with
  | nil => intro m h; simpa [runLockOps] using h
  | cons op rest ih =>
    intro m h
    cases op with
    | lock n => exact ih _ (lock_entries_ge_one m n h)
    | unlock n => exact ih _ (unlock_entries_ge_one m n h)

end Store

/-- Counterexample to C10 as stated: the sequence unlock then lock has
equally many lock and unlock calls for the name, yet the lock entry survives
with count 1, so `isAdding` is still true afterwards. -/
theorem claim_C10_counterexample :
    Store.lockCount "a" [Store.LockOp.unlock "a", Store.LockOp.lock "a"] =
      Store.unlockCount "a" [Store.LockOp.unlock "a", Store.LockOp.lock "a"] ∧
    Store.isAdding
      (Store.runLockOps [] [Store.LockOp.unlock "a", Store.LockOp.lock "a"]) "a"
      = true := by
  constructor
  · rfl
  · rfl

/-- C10 (amended): every entry in the lock map has count at least 1 after any
sequence of lock/unlock calls from an empty map; an unlock at count 1 or with
no entry deletes the entry so isAdding is false; and after equally many lock
and unlock calls for a name in which no unlock precedes its matching lock
(every prefix has at least as many locks as unlocks for that name),
isAdding(name) is false. -/
theorem claim_C10_service_lock_refcount :
    (∀ (ops : List Store.LockOp) (p : String × Int),
      p ∈ Store.runLockOps [] ops → 1 ≤ p.2)
  ∧ (∀ (m : List (String × Int)) (name : String), keysNodup m →
      (mapGet m name = some 1 ∨ mapGet m name = none) →
      Store.isAdding (Store.unlockSvc m name) name = false)
  ∧ (∀ (ops : List Store.LockOp) (name : String),
      Store.prefixBalanced name 0 ops = true →
      Store.lockCount name ops = Store.unlockCount name ops →
      Store.isAdding (Store.runLockOps [] ops) name = false) := by
  refine ⟨?_, ?_, ?_⟩
  · intro ops p hp
    exact Store.runLockOps_entries_ge_one ops [] (by simp) p hp
  · intro m name hnd hget
    rcases hget with hget | hget
    · have hdel : Store.unlockSvc m name = mapDelete m name := by
        simp [Store.unlockSvc, hget]
      rw [Store.isAdding, hdel]
      exact mapHas_mapDelete_of_nodup m name hnd
    · have hdel : Store.unlockSvc m name = mapDelete m name := by
        simp [Store.unlockSvc, hget]
      rw [Store.isAdding, hdel]
      apply mapHas_false_mapDelete
      cases hh : mapHas m name with
      | false => rfl
      | true =>
        rcases (mapHas_iff_get m name).1 hh with ⟨v, hv⟩
        rw [hget] at hv
        cases hv
  · intro ops name hbal hcnt
    have h := Store.runLockOps_balanced name ops [] 0 (by simp [keysNodup])
      le_rfl (by simp [mapGet]) hbal
    have hz : (0 : Int) + (Store.lockCount name ops : Int) -
        (Store.unlockCount name ops : Int) = 0 := by
      rw [hcnt]
      ring
    rw [if_pos hz] at h
    have hnone := h.2
    cases hh : Store.isAdding (Store.runLockOps [] ops) name with
    | false => rfl
    | true =>
      rcases (mapHas_iff_get _ name).1 hh with ⟨v, hv⟩
      rw [hnone] at hv
      cases hv

/-- Witness for C10 (amended) at a concrete balanced sequence: two locks then
two unlocks for a name leave isAdding false. -/
theorem claim_C10_service_lock_refcount_witness :
    Store.isAdding
      (Store.runLockOps []
        [Store.LockOp.lock "a", Store.LockOp.lock "a",
         Store.LockOp.unlock "a", Store.LockOp.unlock "a"]) "a" = false := by
  exact claim_C10_service_lock_refcount.2.2
    [Store.LockOp.lock "a", Store.LockOp.lock "a",
     Store.LockOp.unlock "a", Store.LockOp.unlock "a"] "a" (by decide) (by decide)

/-! ## Eviction modal view-model (src/unnamed/part_008, createEvictionViewModel) -/

namespace Evm

/-- Selection state of the eviction view-model: the `selectedIds` Set (in
insertion order, duplicate-free), the `selectedOrder` array, and the derived
`canProceed` flag maintained by `update()`. -/
structure EvmState where
  selectedIds : List String
  selectedOrder : List String
  canProceed : Bool
deriving DecidableEq, Repr

/-- Initial view-model state. -/
def initState : EvmState :=
  { selectedIds := [], selectedOrder := [], canProceed := false }

/-- JS `Set.add`: append unless already present. -/
def setAdd (s : List String) (x : String) : List String :=
  if s.contains x then s else s ++ [x]

/-- `selectionLimit` computed by `createEvictionViewModel`:
`(opts.requiredCount && opts.requiredCount > 0) ? opts.requiredCount : 1`
(`null` and `0` are falsy). -/
def selectionLimitOf (requiredCount : Option Int) : Int :=
  match requiredCount with
  | some n => if n > 0 then n else 1
  | none => 1

/-- Embedding of the view-model `toggle(id)`: deselect a selected id, else
select it, first shifting out the earliest-selected id when the selection is
full — but skipping the `selectedIds` delete when the shifted id is falsy
(`if (removed)`). Returns the updated state and the removed id. -/
def toggle (limit : Int) (st : EvmState) (id : String) : EvmState × Option String :=
  if st.selectedIds.contains id then
    let ids := st.selectedIds.erase id
    let order := st.selectedOrder.erase id
    ({ selectedIds := ids, selectedOrder := order,
       canProceed := ((ids.length : Int) == limit) }, none)
  else
    if (st.selectedIds.length : Int) == limit then
      match st.selectedOrder with
      | [] =>
        let ids := setAdd st.selectedIds id
        ({ selectedIds := ids, selectedOrder := [id],
           canProceed := ((ids.length : Int) == limit) }, none)
      | r :: restOrder =>
        let ids0 := if r != "" then st.selectedIds.erase r else st.selectedIds
        let ids := setAdd ids0 id
        ({ selectedIds := ids, selectedOrder := restOrder ++ [id],
           canProceed := ((ids.length : Int) == limit) }, some r)
    else
      let ids := setAdd st.selectedIds id
      ({ selectedIds := ids, selectedOrder := st.selectedOrder ++ [id],
         canProceed := ((ids.length : Int) == limit) }, none)

/-- Run a sequence of toggle calls from the initial state. -/
def runToggles (limit : Int) (ids : List String) : EvmState :=
  ids.foldl (fun st id => (toggle limit st id).1) initState

/-- Invariant maintained by toggles over non-empty ids. -/
def EvmInv (limit : Int) (st : EvmState) : Prop :=
  st.selectedIds = st.selectedOrder ∧ st.selectedIds.Nodup ∧
  (st.selectedIds.length : Int) ≤ limit ∧
  st.canProceed = ((st.selectedIds.length : Int) == limit) ∧
  "" ∉ st.selectedIds

theorem toggle_inv (limit : Int) (st : EvmState) (id : String)
    (hlim : 0 < limit) (hinv : EvmInv limit st) (hid : id ≠ "") :
    EvmInv limit (toggle limit st id).1 := by
  obtain ⟨heq, hnd, hlen, hcp, hne⟩ := hinv
  by_cases hc : st.selectedIds.contains id = true
  · simp only [toggle, hc, if_true]
    refine ⟨by rw [heq], hnd.erase id, ?_, rfl, fun hm => hne (st.selectedIds.mem_of_mem_erase hm)⟩
    calc ((st.selectedIds.erase id).length : Int)
        ≤ (st.selectedIds.length : Int) := by
          exact_mod_cast List.length_erase_le _ _
      _ ≤ limit := hlen
  · have hc2 : st.selectedIds.contains id = false := by simpa using hc
    have hcm : id ∉ st.selectedIds := by simpa using hc2
    by_cases hfull : ((st.selectedIds.length : Int) == limit) = true
    · have hfull2 : (st.selectedIds.length : Int) = limit := by simpa using hfull
      cases horder : st.selectedOrder with
      | nil =>
        exfalso
        rw [heq, horder] at hfull2
        simp only [List.length_nil, Nat.cast_zero] at hfull2
        omega
      | cons r rest =>
        have hids : st.selectedIds = r :: rest := by rw [heq, horder]
        have hrne : r ≠ "" := by
          intro hr
          exact hne (by rw [hids, hr]; exact List.mem_cons_self _ _)
        have hrne2 : (r != "") = true := by simpa using hrne
        have hid0 : (if r != "" then st.selectedIds.erase r else st.selectedIds) = rest := by
          rw [if_pos hrne2, hids, List.erase_cons_head]
        have hidnr : id ∉ rest := fun hm => hcm (by rw [hids]; exact List.mem_cons_of_mem _ hm)
        have hadd : setAdd rest id = rest ++ [id] := by
          rw [setAdd, if_neg]
          intro hcc
          exact hidnr (List.elem_iff.1 hcc)
        simp only [toggle, hc2, Bool.false_eq_true, if_false, hfull, if_true,
          horder, hid0, hadd]
        have hndr : rest.Nodup := by
          rw [hids] at hnd
          exact (List.nodup_cons.1 hnd).2
        refine ⟨rfl, ?_, ?_, rfl, ?_⟩
        · simp [List.nodup_append, hndr, hidnr]
        · rw [hids] at hfull2
          simp only [List.length_append, List.length_cons, List.length_nil]
          simp only [List.length_cons] at hfull2
          push_cast at hfull2 ⊢
          omega
        · intro hmem
          rcases List.mem_append.1 hmem with hm | hm
          · exact hne (by rw [hids]; exact List.mem_cons_of_mem _ hm)
          · rcases List.mem_cons.1 hm with hm2 | hm2
            · exact hid hm2.symm
            · cases hm2
    · have hfull2 : ((st.selectedIds.length : Int) == limit) = false := by
        simpa using hfull
      have hadd : setAdd st.selectedIds id = st.selectedIds ++ [id] := by
        rw [setAdd, if_neg]
        intro hcc
        exact hcm (List.elem_iff.1 hcc)
      simp only [toggle, hc2, Bool.false_eq_true, if_false, hfull2, hadd]
      have hlt : (st.selectedIds.length : Int) < limit := by
        have : (st.selectedIds.length : Int) ≠ limit := by
          intro hx
          rw [hx] at hfull2
          simp at hfull2
        omega
      refine ⟨by rw [heq], ?_, ?_, rfl, ?_⟩
      · simp [List.nodup_append, hnd, hcm]
      · simp only [List.length_append, List.length_cons, List.length_nil]
        push_cast
        omega
      · intro hmem
        rcases List.mem_append.1 hmem with hm | hm
        · exact hne hm
        · rcases List.mem_cons.1 hm with hm2 | hm2
          · exact hid hm2.symm
          · cases hm2

theorem runTogglesAux_inv (limit : Int) (hlim : 0 < limit) :
    ∀ (ids : List String) (st : EvmState),
    EvmInv limit st → (∀ id ∈ ids, id ≠ "") →
    EvmInv limit (ids.foldl (fun st id => (toggle limit st id).1) st) := by
  intro ids
  induction ids with
  | nil => intro st hinv _; simpa using hinv
  | cons id rest ih =>
    intro st hinv hids
    simp only [List.foldl_cons]
    exact ih _ (toggle_inv limit st id hlim hinv (hids id (List.mem_cons_self _ _)))
      (fun x hx => hids x (List.mem_cons_of_mem _ hx))

theorem initState_inv (limit : Int) (hlim : 0 < limit) : EvmInv limit initState := by
  refine ⟨rfl, List.nodup_nil, ?_, ?_, ?_⟩
  · simp only [initState, List.length_nil, Nat.cast_zero]
    omega
  · simp only [initState, List.length_nil, Nat.cast_zero]
    have hz : ((0 : Int) == limit) = false := by
      rw [beq_eq_false_iff_ne]
      omega
    rw [hz]
  · simp [initState]

end Evm

/-- Counterexample to C8 as stated: with requiredCount 2 (selection limit 2),
toggling the empty-string id and then two others leaves three ids selected,
because the overflow shift skips the `selectedIds` delete for a falsy id. -/
theorem claim_C8_counterexample :
    Evm.selectionLimitOf (some 2) = 2 ∧
    (Evm.runToggles (Evm.selectionLimitOf (some 2)) ["", "a", "b"]).selectedIds
      = ["", "a", "b"] := by
  constructor
  · rfl
  · rfl

/-- C8 (amended): with requiredCount N > 0 the selection limit is N, and for
every sequence of toggles of NON-EMPTY ids the selected-id set never exceeds
N ids and canProceed is true exactly when the count equals N; toggling a new
non-empty id while N are selected shifts out the earliest-selected id (FIFO)
and appends the new one. -/
theorem claim_C8_eviction_selection_bound :
    (∀ N : Int, 0 < N → Evm.selectionLimitOf (some N) = N)
  ∧ (∀ (N : Int), 0 < N → ∀ (ids : List String), (∀ id ∈ ids, id ≠ "") →
      ((Evm.runToggles N ids).selectedIds.length : Int) ≤ N ∧
      (Evm.runToggles N ids).canProceed =
        (((Evm.runToggles N ids).selectedIds.length : Int) == N))
  ∧ (∀ (N : Int) (st : Evm.EvmState) (id r : String) (rest : List String),
      0 < N → Evm.EvmInv N st → id ≠ "" →
      st.selectedIds.contains id = false →
      ((st.selectedIds.length : Int) == N) = true →
      st.selectedOrder = r :: rest →
      (Evm.toggle N st id).1.selectedOrder = rest ++ [id] ∧
      (Evm.toggle N st id).2 = some r) := by
  refine ⟨?_, ?_, ?_⟩
  · intro N hN
    simp [Evm.selectionLimitOf, hN]
  · intro N hN ids hids
    have h := Evm.runTogglesAux_inv N hN ids Evm.initState (Evm.initState_inv N hN) hids
    exact ⟨h.2.2.1, h.2.2.2.1⟩
  · intro N st id r rest hN hinv hid hc2 hfull horder
    obtain ⟨heq, hnd, hlen, hcp, hne⟩ := hinv
    have hids : st.selectedIds = r :: rest := by rw [heq, horder]
    have hrne : r ≠ "" := by
      intro hr
      exact hne (by rw [hids, hr]; exact List.mem_cons_self _ _)
    have hrne2 : (r != "") = true := by simpa using hrne
    simp only [Evm.toggle, hc2, Bool.false_eq_true, if_false, hfull, if_true, horder,
      hrne2]
    exact ⟨trivial, trivial⟩

/-- Witness for C8 (amended): limit 2, toggles a b c: at most two selected,
canProceed true, and the step at a full selection shifts a and appends c. -/
theorem claim_C8_eviction_selection_bound_witness :
    (((Evm.runToggles 2 ["a", "b", "c"]).selectedIds.length : Int) ≤ 2 ∧
      (Evm.runToggles 2 ["a", "b", "c"]).canProceed =
        (((Evm.runToggles 2 ["a", "b", "c"]).selectedIds.length : Int) == 2)) ∧
    ((Evm.toggle 2 (Evm.runToggles 2 ["a", "b"]) "c").1.selectedOrder
        = ["b", "c"] ∧
      (Evm.toggle 2 (Evm.runToggles 2 ["a", "b"]) "c").2 = some "a") := by
  constructor
  · exact claim_C8_eviction_selection_bound.2.1 2 (by omega) ["a", "b", "c"]
      (by intro id hid; fin_cases hid <;> simp)
  · refine claim_C8_eviction_selection_bound.2.2 2 (Evm.runToggles 2 ["a", "b"])
      "c" "a" ["b"] (by omega) ?_ (by simp) (by decide) (by decide) (by decide)
    exact Evm.runTogglesAux_inv 2 (by omega) ["a", "b"] Evm.initState
      (Evm.initState_inv 2 (by omega)) (by intro id hid; fin_cases hid <;> simp)

/-! ## Snapshot state store (src/storage/StorageManager.js) -/

namespace Snap

/-- A saved state snapshot entry (`type` is `stype` here). -/
structure Snapshot where
  name : String
  stype : String
  md5 : String
  cfg : String
  svc : String
  ts : Int
deriving DecidableEq, Repr

/-- The persisted state store: schema version plus the snapshot list. -/
structure StateStore where
  version : Int
  states : List Snapshot
deriving DecidableEq, Repr

/-- Embedding of `upsertSnapshotByMd5`.  `md5Hex` (the vendored spark-md5
digest of `cfg + svc`) and `Date.now()` are passed as parameters.  When a
snapshot with the hash exists, the source updates it in place and, when its
index is nonzero, splices it out and unshifts it; both paths produce the
refreshed entry at the head followed by the other entries in order, which is
what this embedding returns. -/
def upsertSnapshotByMd5 (md5Hex : String → String) (ts : Int)
    (store : StateStore) (name stype cfg svc : String) :
    StateStore × String × Bool :=
  let md5 := md5Hex (cfg ++ svc)
  match store.states.find? (fun s => s.md5 == md5) with
  | some existing =>
    let newName := if name != "" then name else existing.name
    let updated := { existing with ts := ts, name := newName }
    ({ store with
       states := updated :: store.states.eraseP (fun s => s.md5 == md5) },
     md5, true)
  | none =>
    ({ store with
       states := { name := name, stype := stype, md5 := md5, cfg := cfg,
                   svc := svc, ts := ts } :: store.states },
     md5, false)

/-- Embedding of `StorageManager.saveStateSnapshot`: load the store, upsert
by md5, persist, and return the hash (state passed explicitly). -/
def saveStateSnapshot (md5Hex : String → String) (ts : Int)
    (store : StateStore) (name stype cfg svc : String) : StateStore × String :=
  let r := upsertSnapshotByMd5 md5Hex ts store name stype cfg svc
  (r.1, r.2.1)

end Snap

/-- C4: an upsert whose md5 matches an existing entry adds no entry — the
matched entry is refreshed (timestamp always, name only when nonempty) and
moved to the head; an upsert with a fresh md5 prepends a new entry.  Hence
saving twice with identical cfg+svc content coalesces into one entry with
the latest name and timestamp at the head, and saving different content
(distinct digest) adds a distinct entry. -/
theorem claim_C4_snapshot_upsert_coalesce :
    (∀ (md5Hex : String → String) (ts : Int) (store : Snap.StateStore)
       (name stype cfg svc : String) (ex : Snap.Snapshot),
       store.states.find? (fun s => s.md5 == md5Hex (cfg ++ svc)) = some ex →
       ((Snap.upsertSnapshotByMd5 md5Hex ts store name stype cfg svc).1.states.length
          = store.states.length ∧
        (Snap.upsertSnapshotByMd5 md5Hex ts store name stype cfg svc).1.states
          = { ex with ts := ts, name := if name != "" then name else ex.name } ::
              store.states.eraseP (fun s => s.md5 == md5Hex (cfg ++ svc))))
  ∧ (∀ (md5Hex : String → String) (ts : Int) (store : Snap.StateStore)
       (name stype cfg svc : String),
       store.states.find? (fun s => s.md5 == md5Hex (cfg ++ svc)) = none →
       (Snap.upsertSnapshotByMd5 md5Hex ts store name stype cfg svc).1.states
         = { name := name, stype := stype, md5 := md5Hex (cfg ++ svc),
             cfg := cfg, svc := svc, ts := ts } :: store.states)
  ∧ (∀ (md5Hex : String → String) (ts1 ts2 : Int) (store : Snap.StateStore)
       (name1 name2 stype cfg svc : String),
       store.states.countP (fun s => s.md5 == md5Hex (cfg ++ svc)) = 0 →
       name2 ≠ "" →
       ((Snap.saveStateSnapshot md5Hex ts2
           (Snap.saveStateSnapshot md5Hex ts1 store name1 stype cfg svc).1
           name2 stype cfg svc).1.states.length
         = (Snap.saveStateSnapshot md5Hex ts1 store name1 stype cfg svc).1.states.length ∧
        (Snap.saveStateSnapshot md5Hex ts2
           (Snap.saveStateSnapshot md5Hex ts1 store name1 stype cfg svc).1
           name2 stype cfg svc).1.states.countP
             (fun s => s.md5 == md5Hex (cfg ++ svc)) = 1 ∧
        (Snap.saveStateSnapshot md5Hex ts2
           (Snap.saveStateSnapshot md5Hex ts1 store name1 stype cfg svc).1
           name2 stype cfg svc).1.states.head?
          = some { name := name2, stype := stype, md5 := md5Hex (cfg ++ svc),
                   cfg := cfg, svc := svc, ts := ts2 }))
  ∧ (∀ (md5Hex : String → String) (ts : Int) (store : Snap.StateStore)
       (name stype cfg2 svc2 : String),
       store.states.countP (fun s => s.md5 == md5Hex (cfg2 ++ svc2)) = 0 →
       (Snap.saveStateSnapshot md5Hex ts store name stype cfg2 svc2).1.states.length
         = store.states.length + 1) := by
  refine ⟨?_, ?_, ?_, ?_⟩
  · intro md5Hex ts store name stype cfg svc ex hfind
    have hmem := List.mem_of_find?_eq_some hfind
    have hpa := List.find?_some hfind
    constructor
    · simp only [Snap.upsertSnapshotByMd5, hfind, List.length_cons]
      exact List.length_eraseP_add_one hmem hpa
    · simp only [Snap.upsertSnapshotByMd5, hfind]
  · intro md5Hex ts store name stype cfg svc hfind
    simp only [Snap.upsertSnapshotByMd5, hfind]
  · intro md5Hex ts1 ts2 store name1 name2 stype cfg svc hcount hname2
    have hnone : store.states.find? (fun s => s.md5 == md5Hex (cfg ++ svc)) = none := by
      rw [List.find?_eq_none]
      intro x hx
      exact (List.countP_eq_zero.1 hcount) x hx
    have hst1 : (Snap.saveStateSnapshot md5Hex ts1 store name1 stype cfg svc).1.states
        = { name := name1, stype := stype, md5 := md5Hex (cfg ++ svc),
            cfg := cfg, svc := svc, ts := ts1 } :: store.states := by
      simp only [Snap.saveStateSnapshot, Snap.upsertSnapshotByMd5, hnone]
    have hfind2 : (Snap.saveStateSnapshot md5Hex ts1 store name1 stype cfg svc).1.states.find?
        (fun s => s.md5 == md5Hex (cfg ++ svc))
        = some { name := name1, stype := stype, md5 := md5Hex (cfg ++ svc),
                 cfg := cfg, svc := svc, ts := ts1 } := by
      rw [hst1]
      exact List.find?_cons_of_pos _ (by simp)
    have hname2b : (name2 != "") = true := by simpa using hname2
    have herase : (Snap.saveStateSnapshot md5Hex ts1 store name1 stype cfg svc).1.states.eraseP
        (fun s => s.md5 == md5Hex (cfg ++ svc)) = store.states := by
      rw [hst1]
      exact List.eraseP_cons_of_pos (by simp)
    have hst2 : (Snap.saveStateSnapshot md5Hex ts2
        (Snap.saveStateSnapshot md5Hex ts1 store name1 stype cfg svc).1
        name2 stype cfg svc).1.states
        = { name := name2, stype := stype, md5 := md5Hex (cfg ++ svc),
            cfg := cfg, svc := svc, ts := ts2 } :: store.states := by
      conv_lhs => rw [Snap.saveStateSnapshot, Snap.upsertSnapshotByMd5, hfind2]
      simp only [hname2b, if_true, herase]
    refine ⟨?_, ?_, ?_⟩
    · rw [hst2, hst1]
      simp
    · rw [hst2]
      rw [List.countP_cons]
      rw [hcount]
      simp
    · rw [hst2]
      rfl
  · intro md5Hex ts store name stype cfg2 svc2 hcount
    have hnone : store.states.find? (fun s => s.md5 == md5Hex (cfg2 ++ svc2)) = none := by
      rw [List.find?_eq_none]
      intro x hx
      exact (List.countP_eq_zero.1 hcount) x hx
    simp only [Snap.saveStateSnapshot, Snap.upsertSnapshotByMd5, hnone,
      List.length_cons]

/-- Witness for C4 at concrete inputs: hashing with the identity function,
save snap (cfg, svc) twice with different names into an empty store — one
entry results, renamed and restamped; then save different content — two
entries. -/
theorem claim_C4_snapshot_upsert_coalesce_witness :
    ((Snap.saveStateSnapshot (fun s => s) 2
        (Snap.saveStateSnapshot (fun s => s) 1
          { version := 1, states := [] } "first" "manual" "cfgA" "svcA").1
        "second" "manual" "cfgA" "svcA").1.states.length = 1 ∧
     (Snap.saveStateSnapshot (fun s => s) 3
        (Snap.saveStateSnapshot (fun s => s) 1
          { version := 1, states := [] } "first" "manual" "cfgA" "svcA").1
        "third" "manual" "cfgB" "svcB").1.states.length = 2) := by
  constructor
  · have h := claim_C4_snapshot_upsert_coalesce.2.2.1 (fun s => s) 1 2
      { version := 1, states := [] } "first" "second" "manual" "cfgA" "svcA"
      (by decide) (by decide)
    rw [h.1]
    rfl
  · have h := claim_C4_snapshot_upsert_coalesce.2.2.2 (fun s => s) 3
      (Snap.saveStateSnapshot (fun s => s) 1
        { version := 1, states := [] } "first" "manual" "cfgA" "svcA").1
      "third" "manual" "cfgB" "svcB" (by decide)
    rw [h]
    rfl

/-! ## Fragment chunker (src/utils/chunker.js)

JS strings are modelled as `List Char` in this section: `slice` is
`take`/`drop`, `+` is `++`, `length` is list length, and `startsWith` is
`List.isPrefixOf`. -/

namespace Chunk

/-- Decimal rendering of a number, as the template literal of
`splitIntoParams` stringifies the loop counter. -/
def renderNat (n : Nat) : List Char :=
  if h : n < 10 then [Char.ofNat (48 + n)]
  else renderNat (n / 10) ++ [Char.ofNat (48 + n % 10)]
termination_by n
decreasing_by exact Nat.div_lt_self (by omega) (by omega)

/-- Model of `Number(s)` combined with the `Number.isInteger` guard, on the
key suffixes the chunker produces: the empty string parses to 0
(`Number('') === 0`) and digit strings parse to their decimal value; other
strings (the only other suffixes arising are non-numeric) yield `none`. -/
def jsIntOfDigits (s : List Char) : Option Nat :=
  if s = [] then some 0
  else if s.all (fun c => c.isDigit) then
    some (s.foldl (fun acc c => acc * 10 + (c.toNat - 48)) 0)
  else none

/-- The chunk loop of `splitIntoParams`, carrying the counter `i`: emit
`[name + i, slice]` per `maxLen`-sized slice.  (The JS loop never runs with
`maxLen = 0` because the single-chunk guard fires first; the `maxLen = 0`
branch here returns the empty list.) -/
def splitLoop (name : List Char) (maxLen : Nat) (i : Nat) (s : List Char) :
    List (List Char × List Char) :=
  match s with
  | [] => []
  | c :: rest =>
    if h : maxLen = 0 then []
    else (name ++ renderNat i, (c :: rest).take maxLen) ::
      splitLoop name maxLen (i + 1) ((c :: rest).drop maxLen)
termination_by s.length
decreasing_by simp [List.length_drop]; omega

/-- Embedding of `splitIntoParams(name, data, maxLen)`. -/
def splitIntoParams (name data : List Char) (maxLen : Nat) :
    List (List Char × List Char) :=
  if data.length ≤ maxLen then [(name, data)]
  else splitLoop name maxLen 0 data

/-- `URLSearchParams.get`: first value stored under the key, else null. -/
def paramsGet (params : List (List Char × List Char)) (k : List Char) :
    Option (List Char) :=
  (params.find? (fun p => p.1 == k)).map (fun p => p.2)

/-- The part-collection loop of `joinFromParams`: keep entries whose key
starts with `name` and whose suffix parses as an integer index. -/
def collectParts (name : List Char) (params : List (List Char × List Char)) :
    List (Nat × List Char) :=
  params.filterMap (fun p =>
    if name.isPrefixOf p.1 then
      match jsIntOfDigits (p.1.drop name.length) with
      | some idx => some (idx, p.2)
      | none => none
    else none)

/-- One insertion step of the sort modelling `parts.sort((a,b) => a[0]-b[0])`
(indices are pairwise distinct whenever the parts come from the splitter, so
any correct comparison sort computes the same list). -/
def insertSorted (x : Nat × List Char) :
    List (Nat × List Char) → List (Nat × List Char)
  | [] => [x]
  | y :: rest => if x.1 < y.1 then x :: y :: rest else y :: insertSorted x rest

/-- Sort of the collected parts by numeric index. -/
def sortParts (l : List (Nat × List Char)) : List (Nat × List Char) :=
  l.foldr insertSorted []

/-- Embedding of `joinFromParams(name, params)`: return a truthy single
unsuffixed parameter, else join the numbered parts in index order (null when
none). -/
def joinFromParams (name : List Char)
    (params : List (List Char × List Char)) : Option (List Char) :=
  let single := paramsGet params name
  if single.getD [] ≠ [] then single
  else
    let parts := collectParts name params
    if parts.length = 0 then none
    else some ((sortParts parts).map (fun p => p.2)).flatten

/-- Index-annotated chunks: what `collectParts` recovers from the splitter
output (proof-side characterization of the split). -/
def idxChunks (maxLen : Nat) (i : Nat) (s : List Char) : List (Nat × List Char) :=
  match s with
  | [] => []
  | c :: rest =>
    if h : maxLen = 0 then []
    else (i, (c :: rest).take maxLen) ::
      idxChunks maxLen (i + 1) ((c :: rest).drop maxLen)
termination_by s.length
decreasing_by simp [List.length_drop]; omega

theorem charDigit_isDigit (d : Nat) (h : d < 10) :
    (Char.ofNat (48 + d)).isDigit = true := by
  interval_cases d <;> decide

theorem charDigit_toNat (d : Nat) (h : d < 10) :
    (Char.ofNat (48 + d)).toNat = 48 + d := by
  interval_cases d <;> decide

theorem renderNat_ne_nil (n : Nat) : renderNat n ≠ [] := by
  rw [renderNat]
  split <;> simp

theorem renderNat_all_digits (n : Nat) :
    (renderNat n).all (fun c => c.isDigit) = true := by
  induction n using Nat.strong_induction_on with
  | _ n ih =>
    rw [renderNat]
    split
    · simp only [List.all_cons, List.all_nil, Bool.and_true]
      exact charDigit_isDigit n (by omega)
    · rename_i h
      rw [List.all_append]
      rw [ih (n / 10) (Nat.div_lt_self (by omega) (by omega))]
      simp only [List.all_cons, List.all_nil, Bool.and_true, Bool.true_and]
      exact charDigit_isDigit (n % 10) (Nat.mod_lt _ (by omega))

theorem renderNat_foldl (n : Nat) :
    ∀ a : Nat, (renderNat n).foldl (fun acc c => acc * 10 + (c.toNat - 48)) a
      = a * 10 ^ (renderNat n).length + n := by
  induction n using Nat.strong_induction_on with
  | _ n ih =>
    intro a
    rw [renderNat]
    split
    · rename_i h
      simp only [List.foldl_cons, List.foldl_nil, List.length_cons,
        List.length_nil, pow_one, zero_add]
      rw [charDigit_toNat n (by omega)]
      omega
    · rename_i h
      rw [List.foldl_append]
      rw [ih (n / 10) (Nat.div_lt_self (by omega) (by omega)) a]
      simp only [List.foldl_cons, List.foldl_nil, List.length_append,
        List.length_cons, List.length_nil, zero_add]
      rw [charDigit_toNat (n % 10) (Nat.mod_lt _ (by omega))]
      have hpow : 10 ^ ((renderNat (n / 10)).length + 1)
          = 10 ^ (renderNat (n / 10)).length * 10 := by ring
      rw [hpow]
      have hmod : 48 + n % 10 - 48 = n % 10 := by omega
      rw [hmod]
      have hsplit : n = 10 * (n / 10) + n % 10 := (Nat.div_add_mod n 10).symm ▸ by omega
      ring_nf
      omega

theorem jsIntOfDigits_renderNat (n : Nat) :
    jsIntOfDigits (renderNat n) = some n := by
  rw [jsIntOfDigits, if_neg (renderNat_ne_nil n), if_pos (renderNat_all_digits n)]
  rw [renderNat_foldl n 0]
  simp

theorem appendKey_ne_name (name r : List Char) (hr : r ≠ []) :
    ((name ++ r) == name) = false := by
  rw [beq_eq_false_iff_ne]
  intro h
  have hlen := congrArg List.length h
  simp only [List.length_append] at hlen
  exact hr (List.eq_nil_of_length_eq_zero (by omega))

theorem isPrefixOf_append_self (l1 l2 : List Char) :
    l1.isPrefixOf (l1 ++ l2) = true := by
  induction l1 with
  | nil => simp [List.isPrefixOf]
  | cons c rest ih => simpa [List.isPrefixOf] using ih

theorem paramsGet_splitLoop (name : List Char) (maxLen : Nat) (hml : 1 ≤ maxLen) :
    ∀ (b : Nat) (s : List Char), s.length ≤ b → ∀ i : Nat,
      paramsGet (splitLoop name maxLen i s) name = none := by
  intro b
  induction b with
  | zero =>
    intro s hs i
    have hnil : s = [] := List.eq_nil_of_length_eq_zero (by omega)
    subst hnil
    simp [splitLoop, paramsGet]
  | succ b ih =>
    intro s hs i
    cases s with
    | nil => simp [splitLoop, paramsGet]
    | cons c rest =>
      rw [splitLoop, dif_neg (by omega)]
      simp only [paramsGet]
      rw [List.find?_cons_of_neg _ (by
        simpa using appendKey_ne_name name (renderNat i) (renderNat_ne_nil i))]
      have := ih ((c :: rest).drop maxLen) (by simp only [List.length_drop, List.length_cons] at hs ⊢; omega) (i + 1)
      simpa [paramsGet] using this

theorem collectParts_splitLoop (name : List Char) (maxLen : Nat) (hml : 1 ≤ maxLen) :
    ∀ (b : Nat) (s : List Char), s.length ≤ b → ∀ i : Nat,
      collectParts name (splitLoop name maxLen i s) = idxChunks maxLen i s := by
  intro b
  induction b with
  | zero =>
    intro s hs i
    have hnil : s = [] := List.eq_nil_of_length_eq_zero (by omega)
    subst hnil
    simp [splitLoop, collectParts, idxChunks]
  | succ b ih =>
    intro s hs i
    cases s with
    | nil => simp [splitLoop, collectParts, idxChunks]
    | cons c rest =>
      rw [splitLoop, dif_neg (by omega), idxChunks, dif_neg (by omega)]
      simp only [collectParts, List.filterMap_cons]
      rw [isPrefixOf_append_self name (renderNat i)]
      simp only [if_true, List.drop_left, jsIntOfDigits_renderNat]
      have := ih ((c :: rest).drop maxLen) (by simp only [List.length_drop, List.length_cons] at hs ⊢; omega) (i + 1)
      simp only [collectParts] at this
      rw [this]

theorem idxChunks_keys_ge (maxLen : Nat) :
    ∀ (b : Nat) (s : List Char), s.length ≤ b → ∀ i : Nat,
      ∀ p ∈ idxChunks maxLen i s, i ≤ p.1 := by
  intro b
  induction b with
  | zero =>
    intro s hs i p hp
    have hnil : s = [] := List.eq_nil_of_length_eq_zero (by omega)
    subst hnil
    simp [idxChunks] at hp
  | succ b ih =>
    intro s hs i p hp
    cases s with
    | nil => simp [idxChunks] at hp
    | cons c rest =>
      rw [idxChunks] at hp
      by_cases h0 : maxLen = 0
      · rw [dif_pos h0] at hp
        simp at hp
      · rw [dif_neg h0] at hp
        rcases List.mem_cons.1 hp with h2 | h2
        · subst h2; rfl
        · have := ih ((c :: rest).drop maxLen)
            (by simp only [List.length_drop, List.length_cons] at hs ⊢; omega) (i + 1) p h2
          omega

theorem sortParts_idxChunks (maxLen : Nat) :
    ∀ (b : Nat) (s : List Char), s.length ≤ b → ∀ i : Nat,
      sortParts (idxChunks maxLen i s) = idxChunks maxLen i s := by
  intro b
  induction b with
  | zero =>
    intro s hs i
    have hnil : s = [] := List.eq_nil_of_length_eq_zero (by omega)
    subst hnil
    simp [idxChunks, sortParts]
  | succ b ih =>
    intro s hs i
    cases s with
    | nil => simp [idxChunks, sortParts]
    | cons c rest =>
      rw [idxChunks]
      by_cases h0 : maxLen = 0
      · rw [dif_pos h0]
        simp [sortParts]
      · rw [dif_neg h0]
        simp only [sortParts, List.foldr_cons]
        have hrec := ih ((c :: rest).drop maxLen)
          (by simp only [List.length_drop, List.length_cons] at hs ⊢; omega) (i + 1)
        simp only [sortParts] at hrec
        rw [hrec]
        cases htail : idxChunks maxLen (i + 1) ((c :: rest).drop maxLen) with
        | nil => rfl
        | cons y restTail =>
          have hy : i + 1 ≤ y.1 := by
            apply idxChunks_keys_ge maxLen ((c :: rest).drop maxLen).length _
              le_rfl (i + 1)
            rw [htail]
            exact List.mem_cons_self _ _
          rw [insertSorted, if_pos (by omega)]

theorem idxChunks_flatten (maxLen : Nat) (hml : 1 ≤ maxLen) :
    ∀ (b : Nat) (s : List Char), s.length ≤ b → ∀ i : Nat,
      ((idxChunks maxLen i s).map (fun p => p.2)).flatten = s := by
  intro b
  induction b with
  | zero =>
    intro s hs i
    have hnil : s = [] := List.eq_nil_of_length_eq_zero (by omega)
    subst hnil
    simp [idxChunks]
  | succ b ih =>
    intro s hs i
    cases s with
    | nil => simp [idxChunks]
    | cons c rest =>
      rw [idxChunks, dif_neg (by omega)]
      simp only [List.map_cons, List.flatten_cons]
      rw [ih ((c :: rest).drop maxLen) (by simp only [List.length_drop, List.length_cons] at hs ⊢; omega) (i + 1)]
      exact List.take_append_drop maxLen (c :: rest)

end Chunk

/-- C6: for every string S, name, and maxLen at least 1, joining the
parameters produced by splitIntoParams via joinFromParams returns exactly S;
and whenever S fits in maxLen, splitIntoParams yields exactly one parameter
under the unsuffixed name. -/
theorem claim_C6_chunker_roundtrip :
    (∀ (name data : List Char) (maxLen : Nat), 1 ≤ maxLen →
      Chunk.joinFromParams name (Chunk.splitIntoParams name data maxLen)
        = some data)
  ∧ (∀ (name data : List Char) (maxLen : Nat), data.length ≤ maxLen →
      Chunk.splitIntoParams name data maxLen = [(name, data)]) := by
  constructor
  · intro name data maxLen hml
    by_cases hlen : data.length ≤ maxLen
    · rw [Chunk.splitIntoParams, if_pos hlen]
      have hget : Chunk.paramsGet [(name, data)] name = some data := by
        simp [Chunk.paramsGet, List.find?_cons_of_pos]
      by_cases hd : data = []
      · subst hd
        have hpre : name.isPrefixOf name = true := by
          have h := Chunk.isPrefixOf_append_self name []
          simpa using h
        simp only [Chunk.joinFromParams, hget, Option.getD_some, ne_eq,
          not_true_eq_false, if_false]
        simp only [Chunk.collectParts, List.filterMap_cons, List.filterMap_nil,
          hpre, if_true, List.drop_length]
        simp [Chunk.jsIntOfDigits, Chunk.sortParts, Chunk.insertSorted]
      · simp only [Chunk.joinFromParams, hget, Option.getD_some, ne_eq, hd,
          not_false_eq_true, if_true]
    · rw [Chunk.splitIntoParams, if_neg hlen]
      have hdata_ne : data ≠ [] := by
        intro h
        subst h
        simp at hlen
      have hget := Chunk.paramsGet_splitLoop name maxLen hml data.length data
        le_rfl 0
      have hcol := Chunk.collectParts_splitLoop name maxLen hml data.length data
        le_rfl 0
      simp only [Chunk.joinFromParams, hget, Option.getD_none, ne_eq,
        not_true_eq_false, if_false, hcol]
      have hne : (Chunk.idxChunks maxLen 0 data).length ≠ 0 := by
        cases data with
        | nil => exact absurd rfl hdata_ne
        | cons c rest =>
          rw [Chunk.idxChunks, dif_neg (by omega)]
          simp
      rw [if_neg hne]
      rw [Chunk.sortParts_idxChunks maxLen data.length data le_rfl 0]
      rw [Chunk.idxChunks_flatten maxLen hml data.length data le_rfl 0]
  · intro name data maxLen hlen
    rw [Chunk.splitIntoParams, if_pos hlen]

/-- Witness for C6: a three-character payload split at maxLen 2 round-trips,
and a payload that fits produces the single unsuffixed parameter. -/
theorem claim_C6_chunker_roundtrip_witness :
    Chunk.joinFromParams [Char.ofNat 110]
        (Chunk.splitIntoParams [Char.ofNat 110]
          [Char.ofNat 97, Char.ofNat 98, Char.ofNat 99] 2)
      = some [Char.ofNat 97, Char.ofNat 98, Char.ofNat 99] ∧
    Chunk.splitIntoParams [Char.ofNat 110] [Char.ofNat 97, Char.ofNat 98] 2
      = [([Char.ofNat 110], [Char.ofNat 97, Char.ofNat 98])] := by
  exact ⟨claim_C6_chunker_roundtrip.1 [Char.ofNat 110]
      [Char.ofNat 97, Char.ofNat 98, Char.ofNat 99] 2 (by omega),
    claim_C6_chunker_roundtrip.2 [Char.ofNat 110]
      [Char.ofNat 97, Char.ofNat 98] 2 (by simp)⟩

/-! ## Minimizer (src/utils/minimizer.js)

JSON-like JS values: `undef` is JavaScript `undefined` (the pruning marker
returned by `minimizeDeep`).  Strict equality `===` on arrays and objects is
reference equality; the minimized/restored trees here share no references
with the defaults tree, so it is modelled as false on those constructors and
as value equality on primitives.  Property access (`x[k]`, `x?.[k]`) and
`k in (x || {})` consult the prototype chain: on a plain object they yield
the inherited `Object.prototype` member (the opaque `native` value below) /
true for its names, which is why the compatibility predicate excludes keys
colliding with those names.  What remains modelled as absent/false — reads
and `in` on primitive and array receivers (index keys, string/array
`length`, `Array.prototype` members, the TypeError of `in` on a truthy
primitive) — arises only from an object value meeting a non-object
defaults, which the compatibility predicate rules out; each definition's
doc comment states the simplification it relies on. -/

namespace Minim

/-- JSON-ish JS value.  `native` is the value of a member inherited from
`Object.prototype` (`({}).toString` is `Object.prototype.toString`, a host
function; `__proto__` and `constructor` yield host objects): one opaque
value stands for all of them, and the compatibility predicate below
excludes every input whose behavior could observe one or distinguish
two. -/
inductive J where
  | undef
  | null
  | bool (b : Bool)
  | num (n : Int)
  | str (s : String)
  | arr (xs : List J)
  | obj (fields : List (String × J))
  | native

/-- The own property names of `Object.prototype`: a read of one of these on
a plain object without that own key walks the prototype chain and yields
the inherited member, not undefined. -/
def protoKeys : List String :=
  ["constructor", "hasOwnProperty", "isPrototypeOf", "propertyIsEnumerable",
   "toLocaleString", "toString", "valueOf", "__defineGetter__",
   "__defineSetter__", "__lookupGetter__", "__lookupSetter__", "__proto__"]

/-- The source's `isObj`: non-null object, arrays excluded.  The inherited
members are functions (`typeof` 'function'), so `native` falls through to
false; the two object-valued ones (`__proto__`, `constructor`) are conflated
into it, observably only outside the compatibility predicate. -/
def isObjJ : J → Bool
  | .obj _ => true
  | _ => false

/-- JS strict equality as used on `value === defaults` (see section note).
Two reads of the same inherited member are the same host object, hence
`===`-equal; distinct members are conflated (unreachable under the
compatibility predicate). -/
def jsStrictEq : J → J → Bool
  | .undef, .undef => true
  | .null, .null => true
  | .bool a, .bool b => a == b
  | .num a, .num b => a == b
  | .str a, .str b => a == b
  | .native, .native => true
  | _, _ => false

/-- JS truthiness (functions and objects are truthy). -/
def jTruthy : J → Bool
  | .undef => false
  | .null => false
  | .bool b => b
  | .num n => n != 0
  | .str s => s != ""
  | _ => true

/-- Property read `x[k]` / `x?.[k]` on an object: the own key when present,
else the inherited `Object.prototype` member when `k` is one of its names,
else undefined.  `null?.[k]` / `undefined?.[k]` are undefined.  Reads on
primitive and array receivers (string `length`, array indices, their
prototype members) are modeled as undefined: `restoreDeep` performs
`minimized?.[key]` only under an object `defaults`, where the compatibility
predicate forces `minimized` to be an object, and `defaults[k]` is guarded
by `isObj(defaults)` in `minimizeDeep` and by the object match in
`restoreDeep`, so those receivers are unreachable in the claim's domain. -/
def jGet : J → String → J
  | .obj fs, k =>
    ((fs.find? (fun p => p.1 == k)).map (fun p => p.2)).getD
      (if protoKeys.contains k then .native else .undef)
  | _, _ => (.undef)

/-- Key presence `k in x` for an object: an own key or an inherited
`Object.prototype` name.  In JS, `k in arr` is additionally true for
'length', index keys and `Array.prototype` members, and `in` on a primitive
throws a TypeError; both receivers arise only from an object value against
an array or truthy-primitive defaults, which the compatibility predicate
excludes, so they are modeled as false here. -/
def jHasProp : J → String → Bool
  | .obj fs, k => fs.any (fun p => p.1 == k) || protoKeys.contains k
  | _, _ => false

/-- `x || {}`. -/
def jsOrEmptyObj (x : J) : J := if jTruthy x then x else .obj []

/-- `Object.keys(x)` for the object case (see section note). -/
def jObjKeys : J → List String
  | .obj fs => fs.map Prod.fst
  | _ => []

/-- Insertion-ordered `Set` dedup of the union of key arrays. -/
def setDedup (l : List String) : List String :=
  l.foldl (fun acc k => if acc.contains k then acc else acc ++ [k]) []

/-- Size bound for object field values, used for termination. -/
def sizeOf_snd_lt_obj (fields : List (String × J)) (p : String × J)
    (h : p ∈ fields) : sizeOf p.2 < sizeOf (J.obj fields) := by
  have hlt := List.sizeOf_lt_of_mem h
  obtain ⟨a, b⟩ := p
  simp only [J.obj.sizeOf_spec]
  simp at hlt
  omega

/-- Size bound for object property reads, used for termination. -/
def sizeOf_jGet_lt (dfs : List (String × J)) (k : String) :
    sizeOf (jGet (J.obj dfs) k) < sizeOf (J.obj dfs) := by
  simp only [jGet]
  cases hf : dfs.find? (fun p => p.1 == k) with
  | none =>
    by_cases hp : protoKeys.contains k = true
    · simp only [hf, hp, eq_self_iff_true, if_true, Option.map_none,
        Option.getD_none, J.obj.sizeOf_spec, J.native.sizeOf_spec]
      cases dfs <;> simp
    · have hpf : protoKeys.contains k = false := by simpa using hp
      simp only [hf, hpf, Bool.false_eq_true, if_false, Option.map_none,
        Option.getD_none, J.obj.sizeOf_spec, J.undef.sizeOf_spec]
      cases dfs <;> simp
  | some p =>
    have hmem := List.mem_of_find?_eq_some hf
    have h2 := sizeOf_snd_lt_obj dfs p hmem
    simpa using h2

/-- Embedding of `minimizeDeep(value, defaults, opts)`.  The source's
`Array.isArray(value)` branch is unreachable (its `isObj` guard already
sends arrays through the primitive branch, and `===` on two distinct arrays
is false), so arrays fall through to the final branch here as in the running
code. -/
def minimizeDeep (value defaults : J) (dropEmpties : Bool) : J :=
  match value with
  | .obj fields =>
    let out := fields.attach.filterMap (fun px =>
      let k := px.1.1
      let v := px.1.2
      let dv := if isObjJ defaults then jGet defaults k else J.undef
      if jsStrictEq dv .undef && !(jHasProp (jsOrEmptyObj defaults) k) then
        some (k, v)
      else
        let pruned := minimizeDeep v dv dropEmpties
        if jsStrictEq pruned .undef then none else some (k, pruned))
    if dropEmpties && out.length == 0 then .undef else .obj out
  | v =>
    if jsStrictEq v defaults then .undef
    else if dropEmpties && (jsStrictEq v (.str "") || jsStrictEq v .null) then
      .undef
    else v
termination_by sizeOf value
decreasing_by
  exact sizeOf_snd_lt_obj _ px.1 px.2

/-- Embedding of `restoreDeep(minimized, defaults)`.  The source's
`Array.isArray(defaults)` branch is unreachable (`isObj` already rejects
arrays), so array defaults take the `minimized ?? defaults` branch. -/
def restoreDeep (minimized defaults : J) : J :=
  match defaults with
  | .obj dfs =>
    let keys := setDedup (jObjKeys (.obj dfs) ++ jObjKeys (jsOrEmptyObj minimized))
    .obj (keys.map (fun k => (k, restoreDeep (jGet minimized k) (jGet (.obj dfs) k))))
  | _ =>
    match minimized with
    | .undef => defaults
    | .null => defaults
    | m => m
termination_by sizeOf defaults
decreasing_by
  exact sizeOf_jGet_lt _ _

/-- Keys of an object field list are pairwise distinct (what a real JS
object guarantees). -/
def nodupKeysB : List (String × J) → Bool
  | [] => true
  | (k, _) :: rest => !rest.any (fun p => p.1 == k) && nodupKeysB rest

/-- JS deep equality (the claim's notion): value equality on primitives,
pointwise on arrays, and key-set plus pointwise equality on objects,
ignoring field order. -/
def jeq : J → J → Bool
  | .undef, .undef => true
  | .null, .null => true
  | .bool a, .bool b => a == b
  | .num a, .num b => a == b
  | .str a, .str b => a == b
  | .native, .native => true
  | .arr xs, .arr ys =>
    xs.length == ys.length &&
      (xs.zip ys).attach.all (fun pz => jeq pz.1.1 pz.1.2)
  | .obj fa, .obj fb =>
    (fa.map Prod.fst).all (fun k => fb.any (fun p => p.1 == k)) &&
    ((fb.map Prod.fst).all (fun k => fa.any (fun p => p.1 == k)) &&
      fa.attach.all (fun px => jeq px.1.2 (jGet (J.obj fb) px.1.1)))
  | _, _ => false
termination_by a _ => sizeOf a
decreasing_by
  · obtain ⟨⟨x1, x2⟩, hmem⟩ := pz
    have h1 := List.of_mem_zip hmem
    have h2 := List.sizeOf_lt_of_mem h1.1
    simp only [J.arr.sizeOf_spec]
    simp only at h2 ⊢
    omega
  · exact sizeOf_snd_lt_obj _ px.1 px.2

/-- Well-formed JS value: every object node has duplicate-free keys. -/
def wfB : J → Bool
  | .arr xs => xs.attach.all (fun px => wfB px.1)
  | .obj fs => nodupKeysB fs && fs.attach.all (fun px => wfB px.1.2)
  | _ => true
termination_by v => sizeOf v
decreasing_by
  · have h2 := List.sizeOf_lt_of_mem px.2
    simp only [J.arr.sizeOf_spec]
    omega
  · exact sizeOf_snd_lt_obj _ px.1 px.2

/-- No object key anywhere in the value is an `Object.prototype` name: on
such a key, `minimized?.[key]` and `key in {}` would hit the prototype
chain instead of yielding undefined/false. -/
def protoFree : J → Bool
  | .arr xs => xs.attach.all (fun px => protoFree px.1)
  | .obj fs =>
    fs.all (fun p => !(protoKeys.contains p.1)) &&
      fs.attach.all (fun px => protoFree px.1.2)
  | _ => true
termination_by v => sizeOf v
decreasing_by
  · have h2 := List.sizeOf_lt_of_mem px.2
    simp only [J.arr.sizeOf_spec]
    omega
  · exact sizeOf_snd_lt_obj _ px.1 px.2

/-- Compatibility of a config value with a defaults value: the domain on
which the minimize/restore round trip is the identity.  It rules out the
failure modes of the source pair: null/undefined config values where the
default is not null (restore maps them to the default through `??`),
object/primitive and object/array shape mismatches between config and
defaults, schema keys missing from the config (restore would invent them),
duplicate object keys, and keys colliding with `Object.prototype` names
(reads of a pruned such key return the inherited member, not the
default). -/
def compat : J → J → Bool
  | c, .obj dfs =>
    match c with
    | .obj cfs =>
      nodupKeysB cfs && nodupKeysB dfs &&
      cfs.all (fun p => !(protoKeys.contains p.1)) &&
      dfs.attach.all (fun pd => cfs.any (fun p => p.1 == pd.1.1)) &&
      cfs.attach.all (fun px => compat px.1.2 (jGet (J.obj dfs) px.1.1))
    | _ => false
  | c, .arr _ => !jsStrictEq c .null && !jsStrictEq c .undef && !isObjJ c && wfB c
  | c, .undef => !jsStrictEq c .null && !jsStrictEq c .undef && wfB c && protoFree c
  | c, .null => !jsStrictEq c .undef && wfB c && protoFree c
  | c, _ =>
    match c with
    | .obj _ => false
    | .null => false
    | .undef => false
    | .arr _ => wfB c
    | _ => true
termination_by c d => sizeOf c + sizeOf d
decreasing_by
  · exact Nat.add_lt_add (sizeOf_snd_lt_obj _ px.1 px.2) (sizeOf_jGet_lt _ _)

theorem jGet_obj_eq (fs : List (String × J)) (k : String) :
    jGet (J.obj fs) k =
      (mapGet fs k).getD (if protoKeys.contains k then .native else .undef) := rfl

theorem jGet_obj_free (fs : List (String × J)) (k : String)
    (hk : protoKeys.contains k = false) :
    jGet (J.obj fs) k = (mapGet fs k).getD .undef := by
  rw [jGet_obj_eq, hk]
  simp only [Bool.false_eq_true, if_false]

theorem jHasProp_obj (fs : List (String × J)) (k : String) :
    jHasProp (J.obj fs) k = (mapHas fs k || protoKeys.contains k) := rfl

theorem jsStrictEq_symm (a b : J) (h : jsStrictEq a b = true) :
    jsStrictEq b a = true := by
  cases a <;> cases b <;> simp_all [jsStrictEq] <;> omega

theorem jeq_of_strictEq (a b : J) (h : jsStrictEq a b = true) :
    jeq a b = true := by
  cases a <;> cases b <;> simp_all [jsStrictEq] <;> rw [jeq] <;> simp_all

theorem zip_self_eq (xs : List J) : ∀ p ∈ xs.zip xs, p.1 = p.2 := by
  induction xs with
  | nil => intro p hp; simp at hp
  | cons x rest ih =>
    intro p hp
    rcases List.mem_cons.1 hp with h | h
    · rw [h]
    · exact ih p h

theorem jGet_of_mem_nodup (fs : List (String × J)) (k : String) (v : J)
    (hnd : nodupKeysB fs = true) (hmem : (k, v) ∈ fs) :
    jGet (J.obj fs) k = v := by
  induction fs with
  | nil => simp at hmem
  | cons p rest ih =>
    obtain ⟨k0, v0⟩ := p
    rw [nodupKeysB, Bool.and_eq_true] at hnd
    rcases List.mem_cons.1 hmem with h | h
    · injection h with h1 h2
      subst h1
      subst h2
      rw [jGet_obj_eq, mapGet_cons]
      simp
    · have hall : ∀ x ∈ rest, ¬(x.1 == k0) = true := by
        have h1 := hnd.1
        rw [Bool.not_eq_eq_eq_not, Bool.not_true, List.any_eq_false] at h1
        exact h1
      have hne : (k0 == k) = false := by
        rw [beq_eq_false_iff_ne]
        intro he
        subst he
        exact (hall (k0, v) h) (by simp)
      rw [jGet_obj_eq, mapGet_cons, hne]
      simpa [jGet_obj_eq] using ih hnd.2 h

theorem all_attach_iff {α : Type} (l : List α) (p : α → Bool) :
    (l.attach.all (fun x => p x.1) = true) ↔ ∀ x ∈ l, p x = true := by
  rw [List.all_eq_true]
  constructor
  · intro h x hx
    exact h ⟨x, hx⟩ (List.mem_attach l ⟨x, hx⟩)
  · intro h px _
    exact h px.1 px.2

theorem one_le_sizeOf_J (v : J) : 1 ≤ sizeOf v := by
  cases v <;> simp

theorem sizeOf_mem_lt_arr (xs : List J) (x : J) (h : x ∈ xs) :
    sizeOf x < sizeOf (J.arr xs) := by
  have h2 := List.sizeOf_lt_of_mem h
  simp only [J.arr.sizeOf_spec]
  omega

theorem jeq_refl_aux : ∀ (n : Nat) (v : J), sizeOf v ≤ n → wfB v = true →
    jeq v v = true := by
  intro n
  induction n with
  | zero =>
    intro v hv
    have := one_le_sizeOf_J v
    omega
  | succ n ih =>
    intro v hv hwf
    cases v with
    | undef => simp [jeq]
    | null => simp [jeq]
    | bool b => simp [jeq]
    | num m => simp [jeq]
    | str s => simp [jeq]
    | native => simp [jeq]
    | arr xs =>
      rw [jeq]
      rw [wfB] at hwf
      have hwf2 : ∀ x ∈ xs, wfB x = true := (all_attach_iff xs wfB).1 hwf
      rw [Bool.and_eq_true]
      refine ⟨by simp, ?_⟩
      refine (all_attach_iff (xs.zip xs) (fun y => jeq y.1 y.2)).2 ?_
      intro pz hpz
      have hzz := zip_self_eq xs pz hpz
      have hmem := (List.of_mem_zip hpz).1
      show jeq pz.1 pz.2 = true
      rw [← hzz]
      have hsz := sizeOf_mem_lt_arr xs pz.1 hmem
      exact ih pz.1 (by omega) (hwf2 pz.1 hmem)
    | obj fs =>
      rw [jeq]
      rw [wfB, Bool.and_eq_true] at hwf
      obtain ⟨hnd, hvals⟩ := hwf
      have hvals2 : ∀ p ∈ fs, wfB p.2 = true :=
        (all_attach_iff fs (fun p => wfB p.2)).1 hvals
      rw [Bool.and_eq_true, Bool.and_eq_true]
      refine ⟨?_, ?_, ?_⟩
      · rw [List.all_eq_true]
        intro k hk
        rcases List.mem_map.1 hk with ⟨p, hp, hpk⟩
        rw [List.any_eq_true]
        exact ⟨p, hp, by rw [hpk]; simp⟩
      · rw [List.all_eq_true]
        intro k hk
        rcases List.mem_map.1 hk with ⟨p, hp, hpk⟩
        rw [List.any_eq_true]
        exact ⟨p, hp, by rw [hpk]; simp⟩
      · refine (all_attach_iff fs (fun p => jeq p.2 (jGet (J.obj fs) p.1))).2 ?_
        intro p hp
        show jeq p.2 (jGet (J.obj fs) p.1) = true
        have hget : jGet (J.obj fs) p.1 = p.2 := by
          apply jGet_of_mem_nodup fs p.1 p.2 hnd
          rw [Prod.mk.eta]
          exact hp
        rw [hget]
        have hsz := sizeOf_snd_lt_obj fs p hp
        exact ih p.2 (by omega) (hvals2 p hp)

theorem jeq_refl (v : J) (hwf : wfB v = true) : jeq v v = true :=
  jeq_refl_aux (sizeOf v) v le_rfl hwf

/-- Per-field action of the minimizer object branch (proof-side name for the
body of the `filterMap` in `minimizeDeep`). -/
def minimField (d : J) (dropEmpties : Bool) (k : String) (v : J) :
    Option (String × J) :=
  let dv := if isObjJ d then jGet d k else J.undef
  if jsStrictEq dv .undef && !(jHasProp (jsOrEmptyObj d) k) then some (k, v)
  else
    let pruned := minimizeDeep v dv dropEmpties
    if jsStrictEq pruned .undef then none else some (k, pruned)

theorem filterMap_attach {α β : Type} (l : List α) (g : α → Option β) :
    l.attach.filterMap (fun x => g x.1) = l.filterMap g := by
  induction l with
  | nil => rfl
  | cons a t ih =>
    rw [List.attach_cons, List.filterMap_cons, List.filterMap_map]
    cases hg : g a with
    | none =>
      rw [List.filterMap_cons, hg]
      simpa using ih
    | some b =>
      rw [List.filterMap_cons, hg]
      simp only [List.cons.injEq, true_and]
      simpa using ih

theorem minimize_obj_eq (cfs : List (String × J)) (d : J) (de : Bool) :
    minimizeDeep (.obj cfs) d de =
      (if de && (cfs.filterMap (fun p => minimField d de p.1 p.2)).length == 0
        then .undef
        else .obj (cfs.filterMap (fun p => minimField d de p.1 p.2))) := by
  rw [minimizeDeep]
  have h := filterMap_attach cfs (fun p => minimField d de p.1 p.2)
  simp only [minimField] at h
  rw [h]
  rfl

theorem minimize_obj_false (cfs : List (String × J)) (d : J) :
    minimizeDeep (.obj cfs) d false =
      .obj (cfs.filterMap (fun p => minimField d false p.1 p.2)) := by
  rw [minimize_obj_eq]
  simp

theorem minimField_key (d : J) (de : Bool) (k : String) (v : J) (q : String × J)
    (h : minimField d de k v = some q) : q.1 = k := by
  rw [minimField] at h
  by_cases hc : (jsStrictEq (if isObjJ d then jGet d k else J.undef) .undef &&
      !(jHasProp (jsOrEmptyObj d) k)) = true
  · rw [if_pos hc] at h
    cases h
    rfl
  · rw [if_neg hc] at h
    by_cases hp : jsStrictEq
        (minimizeDeep v (if isObjJ d then jGet d k else J.undef) de) .undef = true
    · rw [if_pos hp] at h
      cases h
    · rw [if_neg hp] at h
      cases h
      rfl

theorem minimize_nonobj_value (c d : J) (hc : isObjJ c = false) :
    minimizeDeep c d false = (if jsStrictEq c d then J.undef else c) := by
  cases c
  case obj fs => simp [isObjJ] at hc
  all_goals rw [minimizeDeep]
  all_goals simp

theorem jHasProp_orEmpty_nonobj (d : J) (hd : isObjJ d = false) (k : String)
    (hk : protoKeys.contains k = false) :
    jHasProp (jsOrEmptyObj d) k = false := by
  rw [jsOrEmptyObj]
  by_cases ht : jTruthy d = true
  · rw [if_pos ht]
    cases d <;> first | rfl | simp [isObjJ] at hd
  · rw [if_neg ht]
    rw [jHasProp_obj, hk]
    rfl

theorem minimize_nonobj_defaults (cfs : List (String × J)) (d : J)
    (hd : isObjJ d = false)
    (hpf : cfs.all (fun p => !(protoKeys.contains p.1)) = true) :
    minimizeDeep (.obj cfs) d false = .obj cfs := by
  rw [minimize_obj_false]
  congr 1
  have hall : ∀ p ∈ cfs, minimField d false p.1 p.2 = some (p.1, p.2) := by
    intro p hp
    have hk : protoKeys.contains p.1 = false := by
      have h1 := List.all_eq_true.1 hpf p hp
      simpa using h1
    simp [minimField, hd, jHasProp_orEmpty_nonobj d hd p.1 hk, jsStrictEq]
  calc cfs.filterMap (fun p => minimField d false p.1 p.2)
      = cfs.filterMap (fun p => some (p.1, p.2)) := by
        apply List.filterMap_congr
        intro p hp
        exact hall p hp
    _ = cfs := by
        have h2 : (fun (p : String × J) => some (p.1, p.2)) = fun p => some p := by
          funext p
          rw [Prod.mk.eta]
        rw [h2, List.filterMap_some]

theorem mapHas_filterMap_minimFields (d : J) (rest : List (String × J))
    (k : String) (hno : rest.any (fun p => p.1 == k) = false) :
    mapHas (rest.filterMap (fun p => minimField d false p.1 p.2)) k = false := by
  rw [Bool.eq_false_iff]
  intro hc
  rcases List.any_eq_true.1 hc with ⟨q, hq, hqk⟩
  rcases List.mem_filterMap.1 hq with ⟨p, hp, hpq⟩
  have hq1 := minimField_key d false p.1 p.2 q hpq
  rw [List.any_eq_false] at hno
  exact (hno p hp) (by rw [← hq1]; exact hqk)

theorem jGet_minimizeObj (d : J) :
    ∀ (cfs : List (String × J)), nodupKeysB cfs = true → ∀ k : String,
    protoKeys.contains k = false →
    jGet (minimizeDeep (.obj cfs) d false) k =
      (match cfs.find? (fun p => p.1 == k) with
       | none => J.undef
       | some p =>
         match minimField d false k p.2 with
         | none => J.undef
         | some q => q.2) := by
  intro cfs
  induction cfs with
  | nil =>
    intro _ k hkp
    rw [minimize_obj_false, jGet_obj_free _ _ hkp]
    rfl
  | cons p0 rest ih =>
    intro hnd k hkp
    obtain ⟨k0, v0⟩ := p0
    rw [nodupKeysB, Bool.and_eq_true] at hnd
    obtain ⟨hke, hndr⟩ := hnd
    have hke2 : rest.any (fun p => p.1 == k0) = false := by
      rw [Bool.not_eq_eq_eq_not, Bool.not_true] at hke
      exact hke
    rw [minimize_obj_false, List.filterMap_cons]
    by_cases hk : (k0 == k) = true
    · have hkeq : k0 = k := by simpa using hk
      subst hkeq
      rw [List.find?_cons_of_pos _ (by simp)]
      cases hm : minimField d false k0 v0 with
      | some q =>
        have hq1 := minimField_key d false k0 v0 q hm
        simp only
        rw [jGet_obj_eq, mapGet_cons]
        rw [show (q.1 == k0) = true by rw [hq1]; simp]
        rw [hm]
        simp
      | none =>
        simp only
        rw [jGet_obj_free _ _ hkp]
        rw [Store.mapGet_none_of_not_has _ _ (mapHas_filterMap_minimFields d rest k0 hke2)]
        rw [hm]
        rfl
    · have hk2 : (k0 == k) = false := by simpa using hk
      rw [List.find?_cons_of_neg _ (by simp [hk2])]
      have hrec := ih hndr k hkp
      rw [minimize_obj_false] at hrec
      cases hm : minimField d false k0 v0 with
      | some q =>
        have hq1 := minimField_key d false k0 v0 q hm
        simp only
        rw [jGet_obj_eq, mapGet_cons]
        rw [show (q.1 == k) = false by rw [hq1]; exact hk2]
        simp only [Bool.false_eq_true, if_false]
        rw [← jGet_obj_eq]
        exact hrec
      | none =>
        simp only
        exact hrec

theorem setDedup_mem (l : List String) (k : String) :
    k ∈ setDedup l ↔ k ∈ l := by
  have hgo : ∀ (l acc : List String),
      (∀ k2 : String, k2 ∈ l.foldl
        (fun a k3 => if a.contains k3 then a else a ++ [k3]) acc ↔
        k2 ∈ acc ∨ k2 ∈ l) := by
    intro l
    induction l with
    | nil => intro acc k2; simp
    | cons x rest ih =>
      intro acc k2
      simp only [List.foldl_cons]
      by_cases hx : acc.contains x = true
      · rw [if_pos hx]
        rw [ih acc k2]
        constructor
        · rintro (h | h)
          · exact Or.inl h
          · exact Or.inr (List.mem_cons_of_mem _ h)
        · rintro (h | h)
          · exact Or.inl h
          · rcases List.mem_cons.1 h with h2 | h2
            · subst h2
              exact Or.inl (List.elem_iff.1 hx)
            · exact Or.inr h2
      · rw [if_neg hx]
        rw [ih (acc ++ [x]) k2]
        simp only [List.mem_append, List.mem_cons, List.not_mem_nil, or_false,
          List.mem_singleton]
        tauto
  rw [setDedup]
  rw [hgo l [] k]
  simp

theorem keys_of_minimFields (d : J) (cfs : List (String × J)) (k : String)
    (hk : k ∈ (cfs.filterMap (fun p => minimField d false p.1 p.2)).map Prod.fst) :
    k ∈ cfs.map Prod.fst := by
  rcases List.mem_map.1 hk with ⟨q, hq, hqk⟩
  rcases List.mem_filterMap.1 hq with ⟨p, hp, hpq⟩
  have hq1 := minimField_key d false p.1 p.2 q hpq
  rw [← hqk, hq1]
  exact List.mem_map_of_mem Prod.fst hp

theorem restore_obj_eq (m : J) (dfs : List (String × J)) :
    restoreDeep m (.obj dfs) =
      .obj ((setDedup (jObjKeys (.obj dfs) ++ jObjKeys (jsOrEmptyObj m))).map
        (fun k => (k, restoreDeep (jGet m k) (jGet (.obj dfs) k)))) := by
  rw [restoreDeep]

theorem restore_nonobj (m d : J) (hd : isObjJ d = false) :
    restoreDeep m d = (if jsStrictEq m .undef || jsStrictEq m .null then d else m) := by
  cases d
  case obj dfs => simp [isObjJ] at hd
  all_goals cases m <;> rw [restoreDeep] <;> simp [jsStrictEq]

theorem strictEq_not_obj (a b : J) (h : jsStrictEq a b = true) :
    isObjJ b = false := by
  cases a <;> cases b <;> simp_all [jsStrictEq, isObjJ]

theorem compat_ne_undef (c d : J) (h : compat c d = true) : c ≠ .undef := by
  intro heq
  subst heq
  cases d <;> simp [compat, jsStrictEq] at h

theorem minimize_obj_ne_undef (cfs : List (String × J)) (d : J) :
    minimizeDeep (.obj cfs) d false ≠ .undef := by
  rw [minimize_obj_false]
  intro h
  cases h

theorem minimize_eq_undef (c dv : J) (h : minimizeDeep c dv false = .undef)
    (hcne : c ≠ .undef) : jsStrictEq c dv = true := by
  cases hc : isObjJ c with
  | true =>
    cases c
    case obj cfs => exact absurd h (minimize_obj_ne_undef cfs dv)
    all_goals simp [isObjJ] at hc
  | false =>
    rw [minimize_nonobj_value c dv hc] at h
    by_cases hse : jsStrictEq c dv = true
    · exact hse
    · rw [if_neg hse] at h
      exact absurd h hcne

theorem mem_keys_iff_any (fs : List (String × J)) (k : String) :
    k ∈ fs.map Prod.fst ↔ fs.any (fun p => p.1 == k) = true := by
  rw [List.any_eq_true]
  constructor
  · intro h
    rcases List.mem_map.1 h with ⟨p, hp, hpk⟩
    exact ⟨p, hp, by rw [hpk]; simp⟩
  · rintro ⟨p, hp, hpk⟩
    rw [show k = p.1 from (beq_iff_eq.1 hpk).symm]
    exact List.mem_map_of_mem Prod.fst hp

theorem compat_obj_elim (cfs dfs : List (String × J))
    (h : compat (.obj cfs) (.obj dfs) = true) :
    nodupKeysB cfs = true ∧ nodupKeysB dfs = true ∧
    (∀ p ∈ cfs, protoKeys.contains p.1 = false) ∧
    (∀ pd ∈ dfs, cfs.any (fun p => p.1 == pd.1) = true) ∧
    (∀ p ∈ cfs, compat p.2 (jGet (J.obj dfs) p.1) = true) := by
  rw [compat] at h
  simp only [Bool.and_eq_true] at h
  obtain ⟨⟨⟨⟨h1, h2⟩, hpk⟩, h3⟩, h4⟩ := h
  refine ⟨h1, h2, ?_, ?_, ?_⟩
  · intro p hp
    have h5 := List.all_eq_true.1 hpk p hp
    simpa using h5
  · intro pd hpd
    exact (all_attach_iff dfs (fun pd => cfs.any (fun p => p.1 == pd.1))).1 h3 pd hpd
  · intro p hp
    exact (all_attach_iff cfs (fun p => compat p.2 (jGet (J.obj dfs) p.1))).1 h4 p hp

theorem mapGet_eq_find?map (m : List (String × J)) (k : String) :
    mapGet m k = (m.find? (fun p => p.1 == k)).map (fun p => p.2) := rfl

theorem strictEq_undef_iff (x : J) :
    jsStrictEq x .undef = true ↔ x = .undef := by
  cases x <;> simp [jsStrictEq]

theorem find?_eq_of_mem_nodup (fs : List (String × J)) (k : String) (v : J)
    (hnd : nodupKeysB fs = true) (hmem : (k, v) ∈ fs) :
    fs.find? (fun p => p.1 == k) = some (k, v) := by
  induction fs with
  | nil => simp at hmem
  | cons p rest ih =>
    obtain ⟨k0, v0⟩ := p
    rw [nodupKeysB, Bool.and_eq_true] at hnd
    rcases List.mem_cons.1 hmem with h | h
    · injection h with h1 h2
      subst h1
      subst h2
      exact List.find?_cons_of_pos _ (by simp)
    · have hall : ∀ x ∈ rest, ¬(x.1 == k0) = true := by
        have h1 := hnd.1
        rw [Bool.not_eq_eq_eq_not, Bool.not_true, List.any_eq_false] at h1
        exact h1
      have hne : (k0 == k) = false := by
        rw [beq_eq_false_iff_ne]
        intro he
        subst he
        exact (hall (k0, v) h) (by simp)
      rw [List.find?_cons_of_neg _ (by simp [hne])]
      exact ih hnd.2 h

theorem compat_nonobj_elim (c d : J) (hd : isObjJ d = false)
    (h : compat c d = true) :
    jsStrictEq c .undef = false ∧ (c = .null → d = .null) ∧ wfB c = true ∧
    (∀ cfs, c = .obj cfs →
      cfs.all (fun p => !(protoKeys.contains p.1)) = true) := by
  refine ⟨?_, ?_, ?_, ?_⟩
  · rw [Bool.eq_false_iff]
    intro hc
    exact compat_ne_undef c d h ((strictEq_undef_iff c).1 hc)
  · intro hc
    subst hc
    cases d
    case null => rfl
    case obj dfs => simp [isObjJ] at hd
    all_goals simp [compat, jsStrictEq] at h
  · cases c
    case undef => exact absurd rfl (compat_ne_undef _ _ h)
    case null => simp [wfB]
    case bool b => simp [wfB]
    case num m => simp [wfB]
    case str s => simp [wfB]
    case native => simp [wfB]
    case arr xs =>
      cases d
      case obj dfs => simp [isObjJ] at hd
      all_goals simp [compat, jsStrictEq, isObjJ] at h
      all_goals simp_all
    case obj cfs =>
      cases d
      case obj dfs => simp [isObjJ] at hd
      all_goals simp [compat, jsStrictEq, isObjJ] at h
      all_goals simp_all
  · intro cfs hc
    subst hc
    cases d
    case obj dfs => simp [isObjJ] at hd
    case arr xs => simp [compat, isObjJ] at h
    case undef =>
      have hpf : protoFree (J.obj cfs) = true := by
        simp only [compat, Bool.and_eq_true] at h
        tauto
      rw [protoFree, Bool.and_eq_true] at hpf
      exact hpf.1
    case null =>
      have hpf : protoFree (J.obj cfs) = true := by
        simp only [compat, Bool.and_eq_true] at h
        tauto
      rw [protoFree, Bool.and_eq_true] at hpf
      exact hpf.1
    all_goals simp [compat] at h

theorem roundtrip_nonobj (c d : J) (hd : isObjJ d = false)
    (hcompat : compat c d = true) :
    jeq (restoreDeep (minimizeDeep c d false) d) c = true := by
  obtain ⟨hcu, hcn, hwf, hpf⟩ := compat_nonobj_elim c d hd hcompat
  cases hio : isObjJ c with
  | true =>
    cases c
    case obj cfs =>
      rw [minimize_nonobj_defaults cfs d hd (hpf cfs rfl), restore_nonobj _ _ hd]
      simp only [jsStrictEq, Bool.or_self, Bool.false_eq_true, if_false]
      exact jeq_refl _ hwf
    all_goals simp [isObjJ] at hio
  | false =>
    rw [minimize_nonobj_value c d hio]
    by_cases hse : jsStrictEq c d = true
    · rw [if_pos hse, restore_nonobj _ _ hd]
      simp only [jsStrictEq, Bool.true_or, if_true]
      exact jeq_of_strictEq d c (jsStrictEq_symm c d hse)
    · have hse2 : jsStrictEq c d = false := by simpa using hse
      rw [if_neg hse, restore_nonobj _ _ hd]
      have h2 : jsStrictEq c .null = false := by
        rw [Bool.eq_false_iff]
        intro hcnull
        have hceq : c = .null := by
          cases c <;> simp [jsStrictEq] at hcnull <;> rfl
        have hdn := hcn hceq
        subst hceq
        subst hdn
        simp [jsStrictEq] at hse2
      rw [hcu, h2]
      simp only [Bool.or_self, Bool.false_eq_true, if_false]
      exact jeq_refl c hwf

theorem strictEq_null_iff (x : J) :
    jsStrictEq x .null = true ↔ x = .null := by
  cases x <;> simp [jsStrictEq]

theorem jObjKeys_orEmpty_minimize (cfs dfs : List (String × J)) :
    jObjKeys (jsOrEmptyObj (minimizeDeep (J.obj cfs) (J.obj dfs) false)) =
      (cfs.filterMap (fun p => minimField (J.obj dfs) false p.1 p.2)).map
        Prod.fst := by
  rw [minimize_obj_false]
  rfl

theorem jGet_obj_not_mem (dfs : List (String × J)) (k : String)
    (hk : k ∉ dfs.map Prod.fst) (hkp : protoKeys.contains k = false) :
    jGet (J.obj dfs) k = .undef := by
  rw [jGet_obj_free _ _ hkp, Store.mapGet_none_of_not_has]
  · rfl
  · rw [Bool.eq_false_iff]
    intro hc
    exact hk ((mem_keys_iff_any dfs k).2 hc)

theorem minimField_passthrough (dfs : List (String × J)) (k : String) (v : J)
    (hk : k ∉ dfs.map Prod.fst) (hkp : protoKeys.contains k = false) :
    minimField (J.obj dfs) false k v = some (k, v) := by
  have hhas : dfs.any (fun p => p.1 == k) = false := by
    rw [Bool.eq_false_iff]
    intro hc
    exact hk ((mem_keys_iff_any dfs k).2 hc)
  have hkm : k ∉ protoKeys := by simpa using hkp
  simp [minimField, isObjJ, jGet_obj_not_mem dfs k hk hkp, jsOrEmptyObj,
    jTruthy, jHasProp, hhas, hkp, hkm, jsStrictEq]

theorem minimField_present (dfs : List (String × J)) (k : String) (v : J)
    (pd : String × J) (hfd : dfs.find? (fun p => p.1 == k) = some pd) :
    minimField (J.obj dfs) false k v =
      (if jsStrictEq (minimizeDeep v pd.2 false) .undef then none
       else some (k, minimizeDeep v pd.2 false)) := by
  have hget : jGet (J.obj dfs) k = pd.2 := by
    rw [jGet_obj_eq, mapGet_eq_find?map, hfd]
    rfl
  have hhas : jHasProp (jsOrEmptyObj (J.obj dfs)) k = true := by
    have hmem := List.mem_of_find?_eq_some hfd
    have hp := List.find?_some hfd
    have hany : dfs.any (fun p => p.1 == k) = true :=
      List.any_eq_true.2 ⟨pd, hmem, hp⟩
    simp only [jsOrEmptyObj, jTruthy, if_true, jHasProp]
    rw [hany, Bool.true_or]
  simp [minimField, isObjJ, hget, hhas]

theorem map_fst_keyed (KS : List String) (F : String → J) :
    ((KS.map (fun k => (k, F k))).map Prod.fst) = KS := by
  induction KS with
  | nil => rfl
  | cons x t ih => simp only [List.map_cons, ih]

theorem jeq_obj_of_pointwise (rfs cfs : List (String × J))
    (h1 : ∀ k ∈ rfs.map Prod.fst, k ∈ cfs.map Prod.fst)
    (h2 : ∀ k ∈ cfs.map Prod.fst, k ∈ rfs.map Prod.fst)
    (h3 : ∀ p ∈ rfs, jeq p.2 (jGet (J.obj cfs) p.1) = true) :
    jeq (J.obj rfs) (J.obj cfs) = true := by
  rw [jeq]
  rw [Bool.and_eq_true, Bool.and_eq_true]
  refine ⟨?_, ?_, ?_⟩
  · rw [List.all_eq_true]
    intro k hk
    exact (mem_keys_iff_any cfs k).1 (h1 k hk)
  · rw [List.all_eq_true]
    intro k hk
    exact (mem_keys_iff_any rfs k).1 (h2 k hk)
  · exact (all_attach_iff rfs (fun p => jeq p.2 (jGet (J.obj cfs) p.1))).2 h3

theorem roundtrip_aux :
    ∀ (n : Nat) (d c : J), sizeOf d ≤ n → compat c d = true →
      jeq (restoreDeep (minimizeDeep c d false) d) c = true := by
  intro n
  induction n with
  | zero =>
    intro d c hdn _
    have h1 := one_le_sizeOf_J d
    omega
  | succ n ih =>
    intro d c hdn hcompat
    cases hdo : isObjJ d with
    | false => exact roundtrip_nonobj c d hdo hcompat
    | true =>
      cases d
      case obj dfs =>
        cases c
        case obj cfs =>
          obtain ⟨hndc, hndd, hkfree, hkeyssub, hfields⟩ :=
            compat_obj_elim cfs dfs hcompat
          rw [restore_obj_eq, jObjKeys_orEmpty_minimize]
          apply jeq_obj_of_pointwise
          · intro k hk
            rw [map_fst_keyed, setDedup_mem, List.mem_append] at hk
            rcases hk with hk | hk
            · simp only [jObjKeys] at hk
              rcases List.mem_map.1 hk with ⟨pd, hpd, hpdk⟩
              rw [← hpdk]
              exact (mem_keys_iff_any cfs pd.1).2 (hkeyssub pd hpd)
            · exact keys_of_minimFields (J.obj dfs) cfs k hk
          · intro k hk
            rw [map_fst_keyed, setDedup_mem, List.mem_append]
            by_cases hkd : k ∈ dfs.map Prod.fst
            · left
              simpa [jObjKeys] using hkd
            · right
              rcases List.mem_map.1 hk with ⟨pc, hpc, hpck⟩
              apply List.mem_map.2
              refine ⟨(k, pc.2), ?_, rfl⟩
              apply List.mem_filterMap.2
              refine ⟨pc, hpc, ?_⟩
              have hkp : protoKeys.contains k = false := by
                rw [← hpck]
                exact hkfree pc hpc
              rw [hpck]
              exact minimField_passthrough dfs k pc.2 hkd hkp
          · intro p hp
            rcases List.mem_map.1 hp with ⟨k, hkmem, hpk⟩
            rw [← hpk]
            show jeq (restoreDeep
                (jGet (minimizeDeep (J.obj cfs) (J.obj dfs) false) k)
                (jGet (J.obj dfs) k)) (jGet (J.obj cfs) k) = true
            have hkc : k ∈ cfs.map Prod.fst := by
              rw [setDedup_mem, List.mem_append] at hkmem
              rcases hkmem with hk | hk
              · simp only [jObjKeys] at hk
                rcases List.mem_map.1 hk with ⟨pd, hpd, hpdk⟩
                rw [← hpdk]
                exact (mem_keys_iff_any cfs pd.1).2 (hkeyssub pd hpd)
              · exact keys_of_minimFields (J.obj dfs) cfs k hk
            rcases List.mem_map.1 hkc with ⟨pc, hpc, hpck⟩
            have hmemc : (k, pc.2) ∈ cfs := by
              rw [← hpck, Prod.mk.eta]
              exact hpc
            have hkp : protoKeys.contains k = false := by
              rw [← hpck]
              exact hkfree pc hpc
            have hgetc : jGet (J.obj cfs) k = pc.2 :=
              jGet_of_mem_nodup cfs k pc.2 hndc hmemc
            have hfindc : cfs.find? (fun q => q.1 == k) = some (k, pc.2) :=
              find?_eq_of_mem_nodup cfs k pc.2 hndc hmemc
            have hcf : compat pc.2 (jGet (J.obj dfs) k) = true := by
              have h0 := hfields pc hpc
              rw [hpck] at h0
              exact h0
            have hgm := jGet_minimizeObj (J.obj dfs) cfs hndc k hkp
            rw [hfindc] at hgm
            rw [hgetc]
            cases hfd : dfs.find? (fun q => q.1 == k) with
            | none =>
              have hknd : k ∉ dfs.map Prod.fst := by
                intro hc
                rcases List.mem_map.1 hc with ⟨pd, hpd, hpdk⟩
                exact (List.find?_eq_none.1 hfd) pd hpd (by simp [hpdk])
              have hgd : jGet (J.obj dfs) k = .undef :=
                jGet_obj_not_mem dfs k hknd hkp
              rw [hgd] at hcf ⊢
              simp only [minimField_passthrough dfs k pc.2 hknd hkp] at hgm
              rw [hgm]
              obtain ⟨hcu, hcn2, hwf, h4⟩ :=
                compat_nonobj_elim pc.2 J.undef rfl hcf
              have h2 : jsStrictEq pc.2 .null = false := by
                rw [Bool.eq_false_iff]
                intro hc2
                exact J.noConfusion (hcn2 ((strictEq_null_iff pc.2).1 hc2))
              rw [restore_nonobj pc.2 J.undef rfl, hcu, h2]
              simp only [Bool.or_self, Bool.false_eq_true, if_false]
              exact jeq_refl pc.2 hwf
            | some pd =>
              have hgd : jGet (J.obj dfs) k = pd.2 := by
                rw [jGet_obj_eq, mapGet_eq_find?map, hfd]
                rfl
              rw [hgd] at hcf ⊢
              have hmfe := minimField_present dfs k pc.2 pd hfd
              cases hpu : jsStrictEq (minimizeDeep pc.2 pd.2 false) .undef with
              | true =>
                have hpu2 : minimizeDeep pc.2 pd.2 false = .undef :=
                  (strictEq_undef_iff _).1 hpu
                have hsecd : jsStrictEq pc.2 pd.2 = true :=
                  minimize_eq_undef pc.2 pd.2 hpu2 (compat_ne_undef _ _ hcf)
                simp only [hmfe, hpu, if_true] at hgm
                rw [hgm]
                rw [restore_nonobj J.undef pd.2 (strictEq_not_obj pc.2 pd.2 hsecd)]
                simp only [jsStrictEq, Bool.true_or, if_true]
                exact jeq_of_strictEq pd.2 pc.2 (jsStrictEq_symm pc.2 pd.2 hsecd)
              | false =>
                simp only [hmfe, hpu, Bool.false_eq_true, if_false] at hgm
                rw [hgm]
                have hsz2 : sizeOf pd.2 ≤ n := by
                  have hlt := sizeOf_snd_lt_obj dfs pd (List.mem_of_find?_eq_some hfd)
                  simp only [J.obj.sizeOf_spec] at hdn hlt
                  omega
                exact ih pd.2 pc.2 hsz2 hcf
        all_goals simp [compat] at hcompat
      all_goals simp [isObjJ] at hdo

end Minim

section
open Minim

/-- C5: as stated the claim is false: restoreDeep maps a null config field
back to its default (the `minimized ?? defaults` fallback treats null like
undefined), so for C = {a: null} and D = {a: "x"} the round trip returns
{a: "x"}, which is not deep-equal to C at the schema field "a". -/
theorem claim_C5_counterexample :
    jeq (restoreDeep
        (minimizeDeep (J.obj [("a", J.null)]) (J.obj [("a", J.str "x")]) false)
        (J.obj [("a", J.str "x")]))
      (J.obj [("a", J.null)]) = false := by
  have h1 : minimizeDeep J.null (J.str "x") false = J.null := by
    rw [minimize_nonobj_value J.null (J.str "x") rfl]
    simp [jsStrictEq]
  have h2 : minimizeDeep (J.obj [("a", J.null)]) (J.obj [("a", J.str "x")])
      false = J.obj [("a", J.null)] := by
    rw [minimize_obj_false]
    have hm : minimField (J.obj [("a", J.str "x")]) false "a" J.null =
        some ("a", J.null) := by
      rw [minimField_present [("a", J.str "x")] "a" J.null ("a", J.str "x") rfl]
      rw [h1]
      simp [jsStrictEq]
    simp [List.filterMap_cons, hm]
  have h3 : restoreDeep J.null (J.str "x") = J.str "x" := by
    rw [restore_nonobj J.null (J.str "x") rfl]
    simp [jsStrictEq]
  rw [h2, restore_obj_eq]
  have h4 : setDedup (jObjKeys (J.obj [("a", J.str "x")]) ++
      jObjKeys (jsOrEmptyObj (J.obj [("a", J.null)]))) = ["a"] := by rfl
  rw [h4]
  simp only [List.map_cons, List.map_nil]
  have h5 : jGet (J.obj [("a", J.null)]) "a" = J.null := by rfl
  have h6 : jGet (J.obj [("a", J.str "x")]) "a" = J.str "x" := by rfl
  rw [h5, h6, h3]
  rw [Bool.eq_false_iff]
  intro hc
  rw [jeq, Bool.and_eq_true, Bool.and_eq_true] at hc
  have h8 := (all_attach_iff [(("a" : String), J.str "x")]
      (fun q => jeq q.2 (jGet (J.obj [("a", J.null)]) q.1))).1 hc.2.2
    ("a", J.str "x") (List.mem_singleton.2 rfl)
  simp [jeq, jGet] at h8

/-- A key named after an `Object.prototype` member also breaks the round
trip — C = D = {toString: "x"} minimizes to {}, and the restore read
`minimized?.['toString']` on the emptied object yields the inherited
member, not undefined — and the compatibility predicate excludes exactly
such inputs. -/
theorem proto_key_breaks_roundtrip :
    jeq (restoreDeep
        (minimizeDeep (J.obj [("toString", J.str "x")])
          (J.obj [("toString", J.str "x")]) false)
        (J.obj [("toString", J.str "x")]))
      (J.obj [("toString", J.str "x")]) = false ∧
    compat (J.obj [("toString", J.str "x")])
      (J.obj [("toString", J.str "x")]) = false := by
  constructor
  · have h1 : minimizeDeep (J.str "x") (J.str "x") false = J.undef := by
      rw [minimize_nonobj_value (J.str "x") (J.str "x") rfl]
      simp [jsStrictEq]
    have hm : minimField (J.obj [("toString", J.str "x")]) false "toString"
        (J.str "x") = none := by
      rw [minimField_present [("toString", J.str "x")] "toString" (J.str "x")
        ("toString", J.str "x") rfl]
      rw [h1]
      simp [jsStrictEq]
    have h2 : minimizeDeep (J.obj [("toString", J.str "x")])
        (J.obj [("toString", J.str "x")]) false = J.obj [] := by
      rw [minimize_obj_false]
      simp [List.filterMap_cons, hm]
    rw [h2, restore_obj_eq]
    have h4 : setDedup (jObjKeys (J.obj [("toString", J.str "x")]) ++
        jObjKeys (jsOrEmptyObj (J.obj []))) = ["toString"] := by rfl
    rw [h4]
    simp only [List.map_cons, List.map_nil]
    have h5 : jGet (J.obj []) "toString" = J.native := by rfl
    have h6 : jGet (J.obj [("toString", J.str "x")]) "toString" = J.str "x" := by
      rfl
    have h7 : restoreDeep J.native (J.str "x") = J.native := by
      rw [restore_nonobj J.native (J.str "x") rfl]
      simp [jsStrictEq]
    rw [h5, h6, h7]
    rw [Bool.eq_false_iff]
    intro hc
    rw [jeq, Bool.and_eq_true, Bool.and_eq_true] at hc
    have h8 := (all_attach_iff [(("toString" : String), J.native)]
        (fun q => jeq q.2 (jGet (J.obj [("toString", J.str "x")]) q.1))).1
      hc.2.2 ("toString", J.native) (List.mem_singleton.2 rfl)
    simp [jeq, jGet] at h8
  · rw [compat]
    have hT : ("toString" : String) ∈ protoKeys := by decide
    simp [nodupKeysB, hT]

/-- C5 (amended): for every config value c and defaults value d that are
compatible — no null/undefined config where the default differs, no
object/primitive or object/array shape mismatch, every defaults-schema key
present in the config, duplicate-free object keys, and no key colliding
with an `Object.prototype` name (on such a key `minimized?.[key]` reads the
inherited member instead of undefined, breaking the restore) — restoreDeep
after minimizeDeep returns a value deep-equal to c; fields of c absent from
the defaults schema pass through and survive (they are part of the deep
equality). -/
theorem claim_C5_minimize_restore_roundtrip (c d : J)
    (h : compat c d = true) :
    jeq (restoreDeep (minimizeDeep c d false) d) c = true :=
  roundtrip_aux (sizeOf d) d c (le_refl _) h

/-- C5 witness: a concrete compatible pair, with one schema field and one
passthrough field. -/
theorem claim_C5_minimize_restore_roundtrip_witness :
    compat (J.obj [("a", J.str "x"), ("extra", J.num 5)])
      (J.obj [("a", J.str "y")]) = true ∧
    jeq (restoreDeep
        (minimizeDeep (J.obj [("a", J.str "x"), ("extra", J.num 5)])
          (J.obj [("a", J.str "y")]) false)
        (J.obj [("a", J.str "y")]))
      (J.obj [("a", J.str "x"), ("extra", J.num 5)]) = true := by
  have hw : compat (J.obj [("a", J.str "x"), ("extra", J.num 5)])
      (J.obj [("a", J.str "y")]) = true := by
    rw [compat]
    have hA : ("a" : String) ∉ protoKeys := by decide
    have hE : ("extra" : String) ∉ protoKeys := by decide
    simp [nodupKeysB, jGet, compat, jsStrictEq, wfB, protoFree, hA, hE]
  exact ⟨hw, claim_C5_minimize_restore_roundtrip _ _ hw⟩

end

namespace AddW

/-- A live widget element in the widget store: its `dataset.service` and
`dataset.dataid` attributes (`addWidget` reads nothing else of it for the
limit check). -/
structure LiveW where
  service : String
  dataid : String

/-- A persisted `widgetState` entry: `serializeWidgetState` stores `dataid`
and `serviceId` (among others); the limit check reads only `dataid`, the
`serviceId` is carried here so the per-service reading of the count can be
stated against it. -/
structure PWid where
  dataid : Option String
  serviceId : Option String

/-- A view's persisted `widgetState` list. -/
structure AView where
  widgetState : List PWid

/-- A board's views. -/
structure ABoard where
  views : List AView

/-- `liveDataIds`: values of the widget store filtered to elements whose
`dataset.service` equals the service being added, mapped to their dataids. -/
def liveDataIds (store : List LiveW) (serviceName : String) : List String :=
  (store.filter (fun el => el.service == serviceName)).map (fun el => el.dataid)

/-- `persistedDataIds`: every board, every view, every widgetState entry,
mapped to `w?.dataid` and filtered by JS truthiness (`filter(Boolean)`
drops undefined and the empty string) — with no filter on the entry's
service. -/
def persistedDataIds (boards : List ABoard) : List String :=
  (((boards.flatMap (fun b => b.views)).flatMap
      (fun v => v.widgetState)).map (fun w => w.dataid)).filterMap
    (fun o => match o with
      | some s => if s == "" then none else some s
      | none => none)

/-- `new Set([...liveDataIds, ...persistedDataIds]).size`. -/
def effectiveCount (store : List LiveW) (boards : List ABoard)
    (serviceName : String) : Nat :=
  (Minim.setDedup (liveDataIds store serviceName ++
    persistedDataIds boards)).length

/-- `!!dataid && (liveDataIds.includes(dataid) || persistedDataIds.includes(dataid))`. -/
def alreadyExistsB (store : List LiveW) (boards : List ABoard)
    (serviceName : String) (dataid : Option String) : Bool :=
  match dataid with
  | none => false
  | some did =>
    did != "" && ((liveDataIds store serviceName).contains did ||
      (persistedDataIds boards).contains did)

/-- The limit gate of `addWidget` (widgetManagement.js lines 239-253): with
a numeric `maxInstances > 0`, the add is rejected (early return with the
limit notification, before any widget creation or `saveWidgetState`) iff
the dataid does not already exist and the effective count meets the limit. -/
def addWidgetRejectsLimit (store : List LiveW) (boards : List ABoard)
    (serviceName : String) (maxInstances : Option Int)
    (dataid : Option String) : Bool :=
  match maxInstances with
  | some m =>
    if 0 < m then
      !(alreadyExistsB store boards serviceName dataid) &&
        (m ≤ (effectiveCount store boards serviceName : Int))
    else false
  | none => false

/-- Modelled from the spec: persisted dataids OF THE GIVEN SERVICE only
(the entry's stored `serviceId` must match), as the claim's per-service
reading requires. -/
def specPersistedDataIdsOfService (boards : List ABoard)
    (serviceId : String) : List String :=
  (((boards.flatMap (fun b => b.views)).flatMap
      (fun v => v.widgetState)).filter
    (fun w => w.serviceId == some serviceId)).filterMap
    (fun w => match w.dataid with
      | some s => if s == "" then none else some s
      | none => none)

/-- Modelled from the spec: the effective count the claim describes — the
union of live dataids of the service and persisted dataids of the same
service. -/
def specEffectiveCount (store : List LiveW) (boards : List ABoard)
    (serviceName serviceId : String) : Nat :=
  (Minim.setDedup (liveDataIds store serviceName ++
    specPersistedDataIdsOfService boards serviceId)).length

end AddW

/-- C1: the code does not compute the per-service count the spec describes.
With service "alpha" (maxInstances 1), no live widgets and no persisted
"alpha" widgets, a single persisted widget of a DIFFERENT service ("beta")
makes `addWidget` reject the add: `persistedDataIds` gathers dataids of all
boards/views without filtering by service (the live side is filtered, the
persisted side is not), so the foreign dataid raises the effective count to
the limit, while the spec's per-service count is 0. -/
theorem claim_C1_limit_counts_foreign_persisted :
    AddW.addWidgetRejectsLimit []
      [⟨[⟨[⟨some "w-beta-1", some "svc-beta"⟩]⟩]⟩]
      "alpha" (some 1) (some "w-new") = true ∧
    AddW.specEffectiveCount []
      [⟨[⟨[⟨some "w-beta-1", some "svc-beta"⟩]⟩]⟩]
      "alpha" "svc-alpha" = 0 := by
  constructor
  · rfl
  · rfl

namespace SwV

/-- A persisted `widgetState` entry as `switchView` reads it (`dataid` and
`url`; columns/rows/type only feed widget construction defaults). An absent
dataid is the empty string (falsy). -/
structure PWent where
  dataid : String
  url : String
deriving DecidableEq, Repr

/-- A view: id and persisted widgetState. -/
structure SView where
  id : String
  widgetState : List PWent
deriving DecidableEq, Repr

/-- A board: id and views. -/
structure SBoard where
  id : String
  views : List SView
deriving DecidableEq, Repr

/-- The state `switchView` touches: the `.board-view` element's id (the
element exists; `getCurrentViewId` dereferences it unconditionally), the
persisted `lastViewId`, the widget store, the persisted boards, and the
configured `maxTotalInstances`. -/
structure SwSt where
  boardViewElId : String
  lastViewId : Option String
  store : Store.WidgetStoreSt
  boards : List SBoard
  maxTotalInstances : Option Int
deriving DecidableEq, Repr

/-- `list.find(p)` mutated in place: replace the first match. -/
def updFirst {α : Type} (p : α → Bool) (f : α → α) : List α → List α
  | [] => []
  | x :: rest => if p x then f x :: rest else x :: updFirst p f rest

/-- Stable ascending insertion for the `data-order` sort. -/
def insertByOrder (x : Store.WEl) : List Store.WEl → List Store.WEl
  | [] => [x]
  | y :: rest => if x.order < y.order then x :: y :: rest else y :: insertByOrder x rest

/-- `Array.prototype.sort` by the numeric `data-order` comparator (stable). -/
def sortByOrder (l : List Store.WEl) : List Store.WEl :=
  l.foldl (fun acc x => insertByOrder x acc) []

/-- The widget-container children with `style.display !== 'none'` (every
stored widget element is mounted in the container). -/
def visibleWidgets (s : Store.WidgetStoreSt) : List Store.WEl :=
  (s.widgets.map Prod.snd).filter (fun el => el.display != "none")

/-- `serializeWidgetState` restricted to the fields this model carries. -/
def serializeW (el : Store.WEl) : PWent := { dataid := el.dataid, url := el.url }

/-- Embedding of `saveWidgetState(boardId, viewId)`: guard on falsy ids,
find the first board owning a view with the given id, and overwrite that
view's widgetState with the serialized visible widgets in data-order. -/
def saveWidgetStateB (boards : List SBoard) (s : Store.WidgetStoreSt)
    (boardId viewId : String) : List SBoard :=
  if boardId == "" || viewId == "" then boards
  else
    let ws := (sortByOrder (visibleWidgets s)).map serializeW
    let updView := fun (v : SView) => { v with widgetState := ws }
    let updBoard := fun (b : SBoard) =>
      { b with views := updFirst (fun v => v.id == viewId) updView b.views }
    updFirst (fun b => b.views.any (fun v => v.id == viewId)) updBoard boards

/-- How the user settles the eviction modal: the Cancel button (or closing
the modal) resolves false without running `onEvict`; evicting and
continuing resolves true after `onEvict(ids)`. -/
inductive ModalOutcome where
  | cancel
  | proceedWith (ids : List String)
deriving DecidableEq, Repr

/-- Embedding of `WidgetStore.evictRuntimeOnly`: drop the entry from the
widgets map (DOM removal only; storage untouched). -/
def evictRuntimeOnly (s : Store.WidgetStoreSt) (id : String) : Store.WidgetStoreSt :=
  match mapGet s.widgets id with
  | none => s
  | some _ => { s with widgets := mapDelete s.widgets id }

/-- `confirmCapacity`'s allowed maximum: `min(maxSize, maxTotalInstances)`
when the latter is numeric, else `maxSize`. -/
def confirmAllowedMax (s : Store.WidgetStoreSt) (maxTotal : Option Int) : Int :=
  match maxTotal with
  | some m => min (s.maxSize : Int) m
  | none => (s.maxSize : Int)

/-- Embedding of `WidgetStore.confirmCapacity(needed)`: when over capacity
the eviction modal runs — cancel returns false with the store untouched,
continuing evicts the chosen ids runtime-only and re-enforces the limit;
when not over capacity it returns true without user interaction. -/
def confirmCapacityB (s : Store.WidgetStoreSt) (maxTotal : Option Int)
    (needed : Nat) (user : ModalOutcome) : Bool × Store.WidgetStoreSt :=
  if 0 < (s.widgets.length : Int) + (needed : Int) - confirmAllowedMax s maxTotal
  then
    match user with
    | .cancel => (false, s)
    | .proceedWith ids =>
      let s2 := ids.foldl evictRuntimeOnly s
      (true, { s2 with widgets := Store.ensureLimit s2.maxSize s2.widgets })
  else (true, s)

/-- `liveDataIds` of `addWidget` over this model's store. -/
def liveDataIdsS (s : Store.WidgetStoreSt) (serviceName : String) : List String :=
  ((s.widgets.map Prod.snd).filter (fun el => el.service == serviceName)).map
    (fun el => el.dataid)

/-- `persistedDataIds` of `addWidget` over this model's boards (all
boards/views, truthy dataids, no service filter). -/
def persistedDataIdsS (boards : List SBoard) : List String :=
  (((boards.flatMap (fun b => b.views)).flatMap (fun v => v.widgetState)).map
    (fun w => w.dataid)).filter (fun d => d != "")

/-- Embedding of `addWidget` as `switchView` invokes it (skipCapacity true,
so `confirmCapacity` is skipped): the per-service add-lock guard, the
maxInstances gate, the cached re-show path, and otherwise create + store.add
+ saveWidgetState. `svcOf` stands for `getServiceFromUrl`, `maxInstOf` for
the resolved service's numeric `maxInstances`. -/
def addWidgetB (st : SwSt) (svcOf : String → String)
    (maxInstOf : String → Option Int) (url boardId viewId dataid : String) :
    SwSt :=
  let serviceName := svcOf url
  if Store.isAdding st.store.serviceLocks serviceName then st
  else
    let s0 :=
      { st.store with serviceLocks := Store.lockSvc st.store.serviceLocks serviceName }
    let unlockSt := fun (s : Store.WidgetStoreSt) =>
      { s with serviceLocks := Store.unlockSvc s.serviceLocks serviceName }
    let live := liveDataIdsS s0 serviceName
    let persisted := persistedDataIdsS st.boards
    let effCount := (Minim.setDedup (live ++ persisted)).length
    let already := dataid != "" &&
      (live.contains dataid || persisted.contains dataid)
    let reject :=
      match maxInstOf serviceName with
      | some m => if 0 < m then !already && (m ≤ (effCount : Int)) else false
      | none => false
    if reject then { st with store := unlockSt s0 }
    else if dataid != "" && mapHas s0.widgets dataid then
      match Store.storeGet s0 dataid with
      | (some el, s1) =>
        let el2 := { el with display := "" }
        let s2 := { s1 with widgets := mapSet s1.widgets dataid el2 }
        let boards2 := saveWidgetStateB st.boards s2 boardId viewId
        { st with store := unlockSt s2, boards := boards2 }
      | (none, s1) => { st with store := unlockSt s1 }
    else
      let visCount := (visibleWidgets s0).length
      let el : Store.WEl :=
        { dataid := dataid, service := serviceName, url := url, display := "", order := visCount }
      let s1 := Store.storeAdd s0 el
      let boards2 := saveWidgetStateB st.boards s1 boardId viewId
      { st with store := unlockSt s1, boards := boards2 }

/-- The mutations `switchView` performs after the capacity confirmation
succeeded: retarget the `.board-view` element id, hide store widgets not in
the target view, show existing / add missing target widgets, persist
`lastViewId`. -/
def commitSwitch (st : SwSt) (svcOf : String → String)
    (maxInstOf : String → Option Int) (boardId viewId : String)
    (view : SView) : SwSt :=
  let st1 := { st with boardViewElId := viewId }
  let activeIds := view.widgetState.map (fun w => w.dataid)
  let store2 := (st1.store.widgets.map Prod.fst).foldl
    (fun acc id => if activeIds.contains id then acc else Store.storeHide acc id)
    st1.store
  let st2 := { st1 with store := store2 }
  let st3 := view.widgetState.foldl
    (fun acc w =>
      if mapHas acc.store.widgets w.dataid then
        { acc with store := Store.storeShow acc.store w.dataid }
      else
        addWidgetB acc svcOf maxInstOf w.url boardId viewId w.dataid) st2
  { st3 with lastViewId := some viewId }

/-- How a `switchView` call ended: an early return before the capacity
check (board or view not found), a cancelled capacity confirmation, or a
committed switch. -/
inductive SwOutcome where
  | earlyReturn
  | cancelled
  | committed
deriving DecidableEq, Repr

/-- The boards after the entry `saveWidgetState(boardId, oldViewId)` of
`switchView` (performed only when the old view id is truthy and differs
from the target). -/
def savedBoards (st : SwSt) (boardId viewId : String) : List SBoard :=
  if st.boardViewElId != "" && st.boardViewElId != viewId
  then saveWidgetStateB st.boards st.store boardId st.boardViewElId
  else st.boards

/-- The target view's widgets missing from the store
(`view.widgetState.filter(w => !widgetStore.has(w.dataid)).length`). -/
def missingCount (st1 : SwSt) (view : SView) : Nat :=
  (view.widgetState.filter (fun w => !(mapHas st1.store.widgets w.dataid))).length

/-- The capacity gate of `switchView`: confirm capacity for the missing
widgets, and only on success run the mutations. -/
def switchGate (st1 : SwSt) (svcOf : String → String)
    (maxInstOf : String → Option Int) (boardId viewId : String)
    (view : SView) (user : ModalOutcome) : SwSt × SwOutcome :=
  if (confirmCapacityB st1.store st1.maxTotalInstances
      (missingCount st1 view) user).1 then
    (commitSwitch
      { st1 with store := (confirmCapacityB st1.store st1.maxTotalInstances
          (missingCount st1 view) user).2 }
      svcOf maxInstOf boardId viewId view, .committed)
  else
    ({ st1 with store := (confirmCapacityB st1.store st1.maxTotalInstances
        (missingCount st1 view) user).2 }, .cancelled)

/-- The board lookup (`getBoards().find(b => b.id === boardId)`) followed by
the view lookup (`board.views.find(v => v.id === viewId)`); `switchView`
returns early when either is absent. -/
def findTargetView (boards : List SBoard) (boardId viewId : String) :
    Option SView :=
  match boards.find? (fun b => b.id == boardId) with
  | none => none
  | some board => board.views.find? (fun v => v.id == viewId)

/-- Embedding of `switchView(boardId, viewId)`: save the view being left,
look up board and view (early return when absent), then the capacity gate
strictly before any of the mutations. -/
def switchViewB (st : SwSt) (svcOf : String → String)
    (maxInstOf : String → Option Int) (boardId viewId : String)
    (user : ModalOutcome) : SwSt × SwOutcome :=
  match findTargetView (savedBoards st boardId viewId) boardId viewId with
  | none => ({ st with boards := savedBoards st boardId viewId }, .earlyReturn)
  | some view =>
    switchGate { st with boards := savedBoards st boardId viewId }
      svcOf maxInstOf boardId viewId view user

theorem confirmCapacityB_false (s : Store.WidgetStoreSt) (maxTotal : Option Int)
    (needed : Nat) (user : ModalOutcome)
    (h : (confirmCapacityB s maxTotal needed user).1 = false) :
    (confirmCapacityB s maxTotal needed user).2 = s := by
  cases user with
  | cancel =>
    rw [confirmCapacityB]
    by_cases hov : (0 <
        (s.widgets.length : Int) + (needed : Int) - confirmAllowedMax s maxTotal)
    · rw [if_pos hov]
    · rw [if_neg hov]
  | proceedWith ids =>
    rw [confirmCapacityB] at h
    by_cases hov : (0 <
        (s.widgets.length : Int) + (needed : Int) - confirmAllowedMax s maxTotal)
    · rw [if_pos hov] at h
      simp at h
    · rw [if_neg hov] at h
      simp at h

theorem switchGate_cancelled (st1 : SwSt) (svcOf : String → String)
    (maxInstOf : String → Option Int) (boardId viewId : String)
    (view : SView) (user : ModalOutcome)
    (h : (switchGate st1 svcOf maxInstOf boardId viewId view user).2 =
      .cancelled) :
    (switchGate st1 svcOf maxInstOf boardId viewId view user).1 = st1 := by
  rw [switchGate] at h ⊢
  by_cases hpr : (confirmCapacityB st1.store st1.maxTotalInstances
      (missingCount st1 view) user).1 = true
  · rw [if_pos hpr] at h
    simp at h
  · rw [if_neg hpr] at h ⊢
    have h2 := confirmCapacityB_false st1.store st1.maxTotalInstances
      (missingCount st1 view) user (by simpa using hpr)
    rw [h2]

theorem switchViewB_cancelled (st : SwSt) (svcOf : String → String)
    (maxInstOf : String → Option Int) (boardId viewId : String)
    (user : ModalOutcome)
    (h : (switchViewB st svcOf maxInstOf boardId viewId user).2 = .cancelled) :
    (switchViewB st svcOf maxInstOf boardId viewId user).1 =
      { st with boards := savedBoards st boardId viewId } := by
  rw [switchViewB] at h ⊢
  cases hfv : findTargetView (savedBoards st boardId viewId) boardId viewId with
  | none => rfl
  | some view =>
    rw [hfv] at h
    exact switchGate_cancelled _ svcOf maxInstOf boardId viewId view user h

end SwV

/-- C2: whenever the capacity confirmation of `switchView` resolves false
(the user cancels the eviction modal), the operation aborts with no state
change from that point: the `.board-view` element keeps its id (no widget
is hidden, shown or created with it), the widget store contents are
unchanged, and `lastViewId` is not written; the capacity gate sits strictly
before all of those mutations (only the entry `saveWidgetState` of the view
being left, which the claim does not cover, has already run). -/
theorem claim_C2_switch_view_cancel_frame
    (st : SwV.SwSt) (svcOf : String → String)
    (maxInstOf : String → Option Int) (boardId viewId : String)
    (user : SwV.ModalOutcome)
    (h : (SwV.switchViewB st svcOf maxInstOf boardId viewId user).2 =
      .cancelled) :
    (SwV.switchViewB st svcOf maxInstOf boardId viewId user).1.boardViewElId =
        st.boardViewElId ∧
    (SwV.switchViewB st svcOf maxInstOf boardId viewId user).1.store =
        st.store ∧
    (SwV.switchViewB st svcOf maxInstOf boardId viewId user).1.lastViewId =
        st.lastViewId := by
  rw [SwV.switchViewB_cancelled st svcOf maxInstOf boardId viewId user h]
  exact ⟨rfl, rfl, rfl⟩

/-- C2 witness: a store at capacity (maxSize 1, one live widget), a target
view with one missing widget, and a cancelling user: the confirmation
resolves false and the frame is preserved. -/
theorem claim_C2_switch_view_cancel_frame_witness :
    (SwV.switchViewB
      ⟨"v1", some "v1",
        ⟨1, [("w1", ⟨"w1", "svc", "u1", "", 0⟩)], []⟩,
        [⟨"b1", [⟨"v1", [⟨"w1", "u1"⟩]⟩, ⟨"v2", [⟨"w2", "u2"⟩]⟩]⟩],
        none⟩
      (fun _ => "svc") (fun _ => none) "b1" "v2"
      SwV.ModalOutcome.cancel).2 = SwV.SwOutcome.cancelled ∧
    ((SwV.switchViewB
      ⟨"v1", some "v1",
        ⟨1, [("w1", ⟨"w1", "svc", "u1", "", 0⟩)], []⟩,
        [⟨"b1", [⟨"v1", [⟨"w1", "u1"⟩]⟩, ⟨"v2", [⟨"w2", "u2"⟩]⟩]⟩],
        none⟩
      (fun _ => "svc") (fun _ => none) "b1" "v2"
      SwV.ModalOutcome.cancel).1.boardViewElId = "v1" ∧
    (SwV.switchViewB
      ⟨"v1", some "v1",
        ⟨1, [("w1", ⟨"w1", "svc", "u1", "", 0⟩)], []⟩,
        [⟨"b1", [⟨"v1", [⟨"w1", "u1"⟩]⟩, ⟨"v2", [⟨"w2", "u2"⟩]⟩]⟩],
        none⟩
      (fun _ => "svc") (fun _ => none) "b1" "v2"
      SwV.ModalOutcome.cancel).1.store =
        ⟨1, [("w1", ⟨"w1", "svc", "u1", "", 0⟩)], []⟩ ∧
    (SwV.switchViewB
      ⟨"v1", some "v1",
        ⟨1, [("w1", ⟨"w1", "svc", "u1", "", 0⟩)], []⟩,
        [⟨"b1", [⟨"v1", [⟨"w1", "u1"⟩]⟩, ⟨"v2", [⟨"w2", "u2"⟩]⟩]⟩],
        none⟩
      (fun _ => "svc") (fun _ => none) "b1" "v2"
      SwV.ModalOutcome.cancel).1.lastViewId = some "v1") := by
  refine ⟨by decide, ?_⟩
  exact claim_C2_switch_view_cancel_frame _ _ _ _ _ _ (by decide)

end AsdDashboard
